import Mathlib

/-!
Verification development for the VPK archive codec and patch engine of the
Dota-Terrain-Mod repository (src/vpk.rs).

The embedding is shallow: byte buffers are lists of naturals (`Bytes`), the
Rust `HashMap`s are association lists iterated in insertion order (Rust's
`HashMap` iteration order is unspecified; this model fixes it to list order,
which is one legal realisation), `Cursor` state is an explicit position into
the buffer, and every aborting failure (`panic!` / `.unwrap()`) is an
`Except VPKError` error value.  Rust strings are modelled as raw byte lists;
the UTF-8 re-decoding steps of the source (`to_str().unwrap()`), which are
the identity on the byte content whenever they succeed, are the identity
here.  The external `md5` and `crc` crates are not part of the repository;
their digest functions enter the model as explicit function parameters.
-/

namespace VpkSpec

/-- Byte buffers: a byte is a natural number (< 256 in every real buffer). -/
abbrev Bytes := List Nat

instance {e a : Type} [DecidableEq e] [DecidableEq a] : DecidableEq (Except e a) := fun x y =>
  match x, y with
  | .error u, .error v =>
    if h : u = v then .isTrue (by rw [h]) else .isFalse (fun hh => h (by cases hh; rfl))
  | .error _, .ok _ => .isFalse (fun hh => by cases hh)
  | .ok _, .error _ => .isFalse (fun hh => by cases hh)
  | .ok u, .ok v =>
    if h : u = v then .isTrue (by rw [h]) else .isFalse (fun hh => h (by cases hh; rfl))

/-- Little-endian encoding of a 16-bit value (`u16::to_le_bytes`). -/
def u16le (n : Nat) : Bytes := [n % 256, n / 256 % 256]

/-- Little-endian encoding of a 32-bit value (`u32::to_le_bytes`). -/
def u32le (n : Nat) : Bytes := [n % 256, n / 256 % 256, n / 65536 % 256, n / 16777216 % 256]

/-- Little-endian decoding of two bytes (`u16::from_le_bytes`). -/
def decodeU16 : Bytes → Nat
  | a :: b :: _ => a + 256 * b
  | _ => 0

/-- Little-endian decoding of four bytes (`u32::from_le_bytes`). -/
def decodeU32 : Bytes → Nat
  | a :: b :: c :: d :: _ => a + 256 * b + 65536 * c + 16777216 * d
  | _ => 0

theorem u16le_length (n : Nat) : (u16le n).length = 2 := rfl

theorem u32le_length (n : Nat) : (u32le n).length = 4 := rfl

theorem decodeU16_u16le (n : Nat) : decodeU16 (u16le n) = n % 65536 := by
  simp only [u16le, decodeU16]; omega

theorem decodeU32_u32le (n : Nat) : decodeU32 (u32le n) = n % 4294967296 := by
  simp only [u32le, decodeU32]; omega

theorem decodeU16_u16le_append (n : Nat) (r : Bytes) : decodeU16 (u16le n ++ r) = n % 65536 := by
  simp only [u16le, decodeU16, List.cons_append]; omega

theorem decodeU32_u32le_append (n : Nat) (r : Bytes) : decodeU32 (u32le n ++ r) = n % 4294967296 := by
  simp only [u32le, decodeU32, List.cons_append]; omega

/-! ## Association-list maps

Model of `HashMap<String, _>`: lookup finds the first matching key, insert
replaces in place or appends, remove deletes the first occurrence.  Keys of
every map built by the program are distinct, so this is a faithful map model
with a fixed (insertion-order) iteration order. -/

/-- Lookup in an association list (`HashMap::get`). -/
def alGet {α : Type} : List (Bytes × α) → Bytes → Option α
  | [], _ => none
  | (k, v) :: t, p => if k = p then some v else alGet t p

/-- Insert into an association list (`HashMap::insert`): replace in place or append. -/
def alInsert {α : Type} : List (Bytes × α) → Bytes → α → List (Bytes × α)
  | [], k, v => [(k, v)]
  | (k', v') :: t, k, v => if k' = k then (k, v) :: t else (k', v') :: alInsert t k v

/-- Remove from an association list (`HashMap::remove`): delete the first occurrence. -/
def alRemove {α : Type} : List (Bytes × α) → Bytes → List (Bytes × α)
  | [], _ => []
  | (k', v') :: t, k => if k' = k then t else (k', v') :: alRemove t k

/-- The key list of an association list (`HashMap::keys`), in iteration order. -/
def alKeys {α : Type} (m : List (Bytes × α)) : List Bytes := m.map Prod.fst

theorem alGet_alInsert_self {α : Type} (m : List (Bytes × α)) (k : Bytes) (v : α) :
    alGet (alInsert m k v) k = some v := by
  induction m with
  | nil => simp [alInsert, alGet]
  | cons h t ih =>
    obtain ⟨k', v'⟩ := h
    by_cases hk : k' = k
    · simp [alInsert, hk, alGet]
    · simp [alInsert, hk, alGet, ih]

theorem alGet_alInsert_ne {α : Type} (m : List (Bytes × α)) (k p : Bytes) (v : α)
    (h : k ≠ p) : alGet (alInsert m k v) p = alGet m p := by
  induction m with
  | nil => simp [alInsert, alGet, h]
  | cons hd t ih =>
    obtain ⟨k', v'⟩ := hd
    by_cases hk : k' = k
    · subst hk; simp [alInsert, alGet, h]
    · simp only [alInsert, if_neg hk, alGet]
      by_cases hp : k' = p
      · simp [hp]
      · simp [hp, ih]

theorem alGet_eq_none_iff {α : Type} (m : List (Bytes × α)) (p : Bytes) :
    alGet m p = none ↔ p ∉ alKeys m := by
  induction m with
  | nil => simp [alGet, alKeys]
  | cons h t ih =>
    obtain ⟨k, v⟩ := h
    by_cases hk : k = p
    · simp [alGet, hk, alKeys]
    · simp [alGet, hk, alKeys, ih]
      intro h'
      exact fun hh => hk hh.symm

theorem alGet_mem {α : Type} (m : List (Bytes × α)) (p : Bytes) (v : α)
    (h : alGet m p = some v) : (p, v) ∈ m := by
  induction m with
  | nil => simp [alGet] at h
  | cons hd t ih =>
    obtain ⟨k, w⟩ := hd
    by_cases hk : k = p
    · subst hk
      simp [alGet] at h
      simp [h]
    · simp [alGet, hk] at h
      simp [ih h]

theorem mem_alKeys_cons {α : Type} (k p : Bytes) (w : α) (t : List (Bytes × α)) :
    p ∈ alKeys ((k, w) :: t) ↔ p = k ∨ p ∈ alKeys t := by
  simp [alKeys]

theorem alGet_isSome_of_mem_keys {α : Type} (m : List (Bytes × α)) (p : Bytes)
    (h : p ∈ alKeys m) : ∃ v, alGet m p = some v := by
  induction m with
  | nil => simp [alKeys] at h
  | cons hd t ih =>
    obtain ⟨k, w⟩ := hd
    by_cases hk : k = p
    · exact ⟨w, by simp [alGet, hk]⟩
    · rw [mem_alKeys_cons] at h
      rcases h with h | h
      · exact absurd h.symm hk
      · obtain ⟨v, hv⟩ := ih h
        exact ⟨v, by simp [alGet, hk, hv]⟩

theorem alKeys_alInsert_mem {α : Type} (m : List (Bytes × α)) (k : Bytes) (v : α)
    (h : k ∈ alKeys m) : alKeys (alInsert m k v) = alKeys m := by
  induction m with
  | nil => simp [alKeys] at h
  | cons hd t ih =>
    obtain ⟨k', v'⟩ := hd
    by_cases hk : k' = k
    · simp [alInsert, hk, alKeys]
    · rw [mem_alKeys_cons] at h
      rcases h with h | h
      · exact absurd h.symm hk
      · simp [alInsert, hk, alKeys]
        have := ih h
        simpa [alKeys] using this

theorem alKeys_alInsert_not_mem {α : Type} (m : List (Bytes × α)) (k : Bytes) (v : α)
    (h : k ∉ alKeys m) : alKeys (alInsert m k v) = alKeys m ++ [k] := by
  induction m with
  | nil => simp [alInsert, alKeys]
  | cons hd t ih =>
    obtain ⟨k', v'⟩ := hd
    rw [mem_alKeys_cons] at h
    push_neg at h
    have h1 : k' ≠ k := fun hh => h.1 hh.symm
    simp only [alInsert, if_neg h1]
    have := ih h.2
    simp [alKeys] at this ⊢
    exact this

theorem length_alRemove_mem {α : Type} (m : List (Bytes × α)) (k : Bytes)
    (h : k ∈ alKeys m) : (alRemove m k).length = m.length - 1 := by
  induction m with
  | nil => simp [alKeys] at h
  | cons hd t ih =>
    obtain ⟨k', v'⟩ := hd
    by_cases hk : k' = k
    · simp [alRemove, hk]
    · rw [mem_alKeys_cons] at h
      rcases h with h | h
      · exact absurd h.symm hk
      · have ht : t.length ≥ 1 := by
          cases t with
          | nil => simp [alKeys] at h
          | cons a b => simp
        simp [alRemove, hk, ih h]
        omega

theorem alGet_alRemove_ne {α : Type} (m : List (Bytes × α)) (k p : Bytes)
    (h : k ≠ p) : alGet (alRemove m k) p = alGet m p := by
  induction m with
  | nil => simp [alRemove]
  | cons hd t ih =>
    obtain ⟨k', v'⟩ := hd
    by_cases hk : k' = k
    · subst hk; simp [alRemove, alGet, h]
    · simp only [alRemove, if_neg hk, alGet]
      by_cases hp : k' = p
      · simp [hp]
      · simp [hp, ih]

theorem mem_alKeys_alRemove {α : Type} (m : List (Bytes × α)) (k p : Bytes)
    (hne : k ≠ p) (h : p ∈ alKeys m) : p ∈ alKeys (alRemove m k) := by
  obtain ⟨v, hv⟩ := alGet_isSome_of_mem_keys m p h
  have h3 : alGet (alRemove m k) p = some v := by rw [alGet_alRemove_ne m k p hne, hv]
  by_contra hc
  rw [← alGet_eq_none_iff] at hc
  rw [hc] at h3
  cases h3

theorem alKeys_length {α : Type} (m : List (Bytes × α)) : (alKeys m).length = m.length := by
  simp [alKeys]

/-! ## Path decomposition

Model of `std::path::Path::parent` / `file_name` / `file_stem` / `extension`
/ `with_file_name` for the simple relative paths handled by this program:
splitting at the last separator byte.  (Rust's `Path` additionally
normalises `.` and `..` segments and repeated separators; the round-trip
hypotheses below exclude such paths, so the two semantics agree on every
path to which a theorem applies.) -/

/-- Split a byte list at the last occurrence of `c`:
`splitLast c p = some (l, r)` iff `p = l ++ c :: r` and `c ∉ r`. -/
def splitLast (c : Nat) : Bytes → Option (Bytes × Bytes)
  | [] => none
  | b :: t =>
    match splitLast c t with
    | some (l, r) => some (b :: l, r)
    | none => if b = c then some ([], t) else none

theorem splitLast_isSome_of_mem (c : Nat) (p : Bytes) (h : c ∈ p) :
    ∃ pr, splitLast c p = some pr := by
  induction p with
  | nil => simp at h
  | cons b t ih =>
    simp only [splitLast]
    cases hsp : splitLast c t with
    | some pr => exact ⟨_, rfl⟩
    | none =>
      rcases List.mem_cons.mp h with h1 | h1
      · exact ⟨_, by rw [if_pos h1.symm]⟩
      · obtain ⟨pr, hpr⟩ := ih h1
        rw [hpr] at hsp
        cases hsp

theorem splitLast_spec (c : Nat) (p l r : Bytes) (h : splitLast c p = some (l, r)) :
    p = l ++ c :: r ∧ c ∉ r := by
  induction p generalizing l r with
  | nil => simp [splitLast] at h
  | cons b t ih =>
    simp only [splitLast] at h
    cases hsp : splitLast c t with
    | some pr =>
      obtain ⟨l', r'⟩ := pr
      rw [hsp, Option.some.injEq, Prod.mk.injEq] at h
      obtain ⟨rfl, rfl⟩ := h
      obtain ⟨he, hn⟩ := ih l' r' hsp
      exact ⟨by simp [he], hn⟩
    | none =>
      rw [hsp] at h
      by_cases hb : b = c
      · rw [if_pos hb, Option.some.injEq, Prod.mk.injEq] at h
        obtain ⟨rfl, rfl⟩ := h
        refine ⟨by simp [hb], fun hc => ?_⟩
        obtain ⟨pr, hpr⟩ := splitLast_isSome_of_mem c t hc
        rw [hpr] at hsp
        cases hsp
      · rw [if_neg hb] at h
        cases h

theorem splitLast_of_not_mem (c : Nat) (p : Bytes) (h : c ∉ p) : splitLast c p = none := by
  induction p with
  | nil => rfl
  | cons b t ih =>
    simp only [List.mem_cons] at h
    push_neg at h
    simp only [splitLast, ih h.2]
    rw [if_neg (fun hh => h.1 hh.symm)]

theorem splitLast_append (c : Nat) (l r : Bytes) (h : c ∉ r) :
    splitLast c (l ++ c :: r) = some (l, r) := by
  induction l with
  | nil => simp [splitLast, splitLast_of_not_mem c r h]
  | cons b t ih => simp [splitLast, ih]

/-- Model of `Path::parent().to_str()` on the paths this program feeds it:
everything before the last separator, or the empty string. -/
def parentDir (p : Bytes) : Bytes :=
  match splitLast 47 p with
  | some (l, _) => l
  | none => []

/-- Model of `Path::file_name`: everything after the last separator. -/
def fileNameOf (p : Bytes) : Bytes :=
  match splitLast 47 p with
  | some (_, r) => r
  | none => p

/-- Model of `Path::file_stem` and `Path::extension` combined, applied to a
file name: `some (stem, ext)` when the name has an embedded dot that is not
its first byte, `none` otherwise (whereupon `extension()` is `None`). -/
def extStem (f : Bytes) : Option (Bytes × Bytes) :=
  match splitLast 46 f with
  | some ([], _) => none
  | some (s, e) => some (s, e)
  | none => none

/-- Model of `Path::with_file_name`: drop the final path segment, append the
new name. -/
def withFileName (p newName : Bytes) : Bytes :=
  match splitLast 47 p with
  | some (l, _) => l ++ [47] ++ newName
  | none => newName

/-- Split a directory string into its separator-delimited segments. -/
def splitOnSlash : Bytes → List Bytes
  | [] => [[]]
  | c :: t =>
    match splitOnSlash t with
    | [] => [[]]
    | s :: rest => if c = 47 then [] :: s :: rest else (c :: s) :: rest

/-- Directory well-formedness: every segment nonempty and not a `.` or `..`
segment (on such directories the model's last-separator splitting agrees
with Rust's component-based `Path` functions). -/
def segsOkB (dir : Bytes) : Bool :=
  (splitOnSlash dir).all (fun s => !(s = [] || s = [46] || s = [46, 46]))

/-- Well-formed archive path for the writer: decomposes as
`dir ++ "/" ++ stem ++ "." ++ ext` with a nonempty, non-space, well-formed
directory, a nonempty dot-free stem and extension (exactly one extension
segment in the file name), and no embedded NUL bytes. -/
def goodKeyB (p : Bytes) : Bool :=
  let d := parentDir p
  let f := fileNameOf p
  p.all (fun c => c ≠ 0) && !(d = []) && !(d = [32]) && segsOkB d &&
    f.countP (fun c => c = 46) = 1 && !(f.head? = some 46) && !(f.getLast? = some 46)

theorem countP_pos_mem (l : Bytes) (c : Nat) (h : 0 < l.countP (fun x => x = c)) : c ∈ l := by
  by_contra hc
  have : l.countP (fun x => x = c) = 0 := by
    rw [List.countP_eq_zero]
    intro a ha
    simp
    intro h'
    exact hc (h' ▸ ha)
  omega

/-- Structure extracted from a good key: the canonical decomposition used by
both the writer (grouping) and, after the round trip, the reader (path
reconstruction). -/
theorem goodKey_decomp (p : Bytes) (h : goodKeyB p = true) :
    ∃ d s e, parentDir p = d ∧ fileNameOf p = s ++ [46] ++ e ∧
      extStem (fileNameOf p) = some (s, e) ∧
      p = d ++ [47] ++ s ++ [46] ++ e ∧
      d ≠ [] ∧ d ≠ [32] ∧ (0 : Nat) ∉ d ∧
      s ≠ [] ∧ (0 : Nat) ∉ s ∧ (46 : Nat) ∉ s ∧ (47 : Nat) ∉ s ∧
      e ≠ [] ∧ (0 : Nat) ∉ e ∧ (46 : Nat) ∉ e ∧ (47 : Nat) ∉ e := by
  simp only [goodKeyB, Bool.and_eq_true] at h
  obtain ⟨⟨⟨⟨⟨⟨hnul, hd0⟩, hd32⟩, _hsegs⟩, hcnt⟩, hhead⟩, hlast⟩ := h
  have hnul' : ∀ c ∈ p, c ≠ 0 := by
    rw [List.all_eq_true] at hnul
    intro c hc
    simpa using hnul c hc
  have hd0' : parentDir p ≠ [] := by
    intro hh
    rw [hh] at hd0
    simp at hd0
  have hd32' : parentDir p ≠ [32] := by
    intro hh
    rw [hh] at hd32
    simp at hd32
  have hcnt' : (fileNameOf p).countP (fun c => c = 46) = 1 := by
    simpa using hcnt
  have hhead' : (fileNameOf p).head? ≠ some 46 := by
    intro hh
    rw [hh] at hhead
    simp at hhead
  have hlast' : (fileNameOf p).getLast? ≠ some 46 := by
    intro hh
    rw [hh] at hlast
    simp at hlast
  clear hnul hd0 hd32 hcnt hhead hlast
  -- the path must contain a separator, since parentDir p ≠ []
  cases hsp : splitLast 47 p with
  | none => exact absurd (by simp [parentDir, hsp]) hd0'
  | some pr =>
    obtain ⟨d, f⟩ := pr
    have hdd : parentDir p = d := by simp [parentDir, hsp]
    have hff : fileNameOf p = f := by simp [fileNameOf, hsp]
    obtain ⟨hpe, hns⟩ := splitLast_spec 47 p d f hsp
    rw [hff] at hcnt' hhead' hlast'
    have hmem : (46 : Nat) ∈ f := by
      apply countP_pos_mem f 46
      rw [hcnt']
      omega
    obtain ⟨pr2, hsf⟩ := splitLast_isSome_of_mem 46 f hmem
    obtain ⟨s, e⟩ := pr2
    obtain ⟨hfe, hne⟩ := splitLast_spec 46 f s e hsf
    have hs0 : s ≠ [] := by
      intro hs
      subst hs
      rw [hfe] at hhead'
      simp at hhead'
    have he0 : e ≠ [] := by
      intro he
      subst he
      rw [hfe] at hlast'
      simp at hlast'
    have hcs : (46 : Nat) ∉ s := by
      intro hc
      rw [hfe, List.countP_append] at hcnt'
      have h1 : (0 : Nat) < s.countP (fun c => decide (c = 46)) :=
        List.countP_pos_iff.mpr ⟨46, hc, by simp⟩
      have h2 : (0 : Nat) < (46 :: e).countP (fun c => decide (c = 46)) :=
        List.countP_pos_iff.mpr ⟨46, by simp, by simp⟩
      omega
    have hes : extStem f = some (s, e) := by
      cases s with
      | nil => exact absurd rfl hs0
      | cons a b => simp [extStem, hsf]
    have hd : (0 : Nat) ∉ d := fun hc => hnul' 0 (by rw [hpe]; simp [hc]) rfl
    have hsn : (0 : Nat) ∉ s := fun hc =>
      hnul' 0 (by rw [hpe, hfe]; simp [hc]) rfl
    have hen : (0 : Nat) ∉ e := fun hc =>
      hnul' 0 (by rw [hpe, hfe]; simp [hc]) rfl
    have hfs : (47 : Nat) ∉ s := fun hc => hns (by rw [hfe]; simp [hc])
    have hfe' : (47 : Nat) ∉ e := fun hc => hns (by rw [hfe]; simp [hc])
    rw [hdd] at hd0' hd32'
    refine ⟨d, s, e, hdd, by rw [hff, hfe]; simp, by rw [hff]; exact hes, ?_, hd0', hd32', hd,
      hs0, hsn, hcs, hfs, he0, hen, hne, hfe'⟩
    rw [hpe, hfe]
    simp

/-! ## Reader (impl VPK, src/vpk.rs lines 73-243)

Errors: `panic!("Invalid VPK")` is `invalidSignature`,
`panic!("Error while parsing index." / "Error parsing index.")` is
`indexCorrupt`, a failing `read_exact(..).unwrap()` is `eof`.  The merger's
`remove(..).unwrap()` panic on a missing map file is `noMapFile`; the
writer's `extension().unwrap()` and `get(..).unwrap()` panics are `badPath`
and `missingFile`. -/

inductive VPKError
  | invalidSignature
  | indexCorrupt
  | eof
  | noMapFile
  | badPath
  | missingFile
deriving DecidableEq

/-- Header of a VPK file: seven 32-bit little-endian fields (struct VPKHeader). -/
structure VPKHeader where
  signature : Nat
  version : Nat
  tree_length : Nat
  embed_chunk_length : Nat
  chunk_hashes_length : Nat
  self_hashes_length : Nat
  signature_length : Nat
deriving DecidableEq

/-- Per-file metadata record of the index (struct VPKMetadata). -/
structure VPKMetadata where
  preload : Bytes
  crc32 : Nat
  preload_length : Nat
  archive_index : Nat
  archive_offset : Nat
  file_length : Nat
  suffix : Nat
deriving DecidableEq

/-- `VPKMetadata::validate`: reject a record whose 16-bit terminator is not
`0xFFFF`, and for in-archive payloads (`archive_index == 0x7FFF`) correct the
stored offset by the header length plus the tree length (u32 arithmetic). -/
def VPKMetadata.validate (m : VPKMetadata) (header : VPKHeader) : Except VPKError VPKMetadata :=
  if m.suffix ≠ 65535 then .error .indexCorrupt
  else if m.archive_index = 32767 then
    .ok { m with archive_offset := (m.archive_offset + 28 + header.tree_length) % 4294967296 }
  else .ok m

/-- `Cursor::read_exact` on the buffer: `n` bytes from `pos`, or an error if
fewer than `n` bytes remain (reading zero bytes always succeeds). -/
def readExact (buf : Bytes) (pos n : Nat) : Option (Bytes × Nat) :=
  if n = 0 then some ([], pos)
  else if pos + n ≤ buf.length then some ((buf.drop pos).take n, pos + n)
  else none

/-- Bytes up to and including the first NUL, or the whole list if none. -/
def takeUntilNul : Bytes → Bytes
  | [] => []
  | b :: t => if b = 0 then [0] else b :: takeUntilNul t

/-- `BufRead::read_until(0, ..)` from `pos`: the consumed bytes (delimiter
included when found) and the new position. -/
def readUntilNul (buf : Bytes) (pos : Nat) : Bytes × Nat :=
  let c := takeUntilNul (buf.drop pos)
  (c, pos + c.length)

/-- `CString::from_vec_with_nul`: succeeds iff the vector is nonempty, ends
with NUL and has no interior NUL; returns the content without the NUL. -/
def fromVecWithNul (v : Bytes) : Option Bytes :=
  match v.getLast? with
  | some 0 => if 0 ∈ v.dropLast then none else some v.dropLast
  | _ => none

/-- Directory display as a path prefix (lines 173-177): a directory that is
a single space denotes the archive root and contributes no prefix, any other
directory is followed by a separator. -/
def dirPfx (dir : Bytes) : Bytes := if dir ≠ [32] then dir ++ [47] else []

/-- Logical path construction for one parsed entry (lines 173-177, 189-192):
the directory prefix, the base name, a dot, and the extension. -/
def entryPath (dir name ext : Bytes) : Bytes := dirPfx dir ++ name ++ [46] ++ ext

/-- Index of a VPK: logical path to metadata, in insertion order. -/
abbrev Index := List (Bytes × VPKMetadata)

/-- How a tree-walk loop finished: `ret` models the `return` taken when a
string run ends without a NUL terminator (the whole walk stops), `brk`
models the `break` on an empty string (the enclosing loop continues). -/
inductive WalkExit
  | ret
  | brk
deriving DecidableEq

/-- Inner loop of `populate_index` (lines 178-210): file names and their
18-byte metadata records for one directory.  The fuel argument only bounds
the iteration count for termination; every call made by the program supplies
more fuel than bytes in the buffer, and each iteration consumes at least one
byte, so the fuel never runs out (running out acts like end-of-input). -/
def loopFiles (buf : Bytes) (header : VPKHeader) (ext pfx : Bytes) :
    Nat → Nat → Index → Except VPKError (WalkExit × Index × Nat)
  | 0, pos, index => .ok (.ret, index, pos)
  | fuel + 1, pos, index =>
    let r := readUntilNul buf pos
    match fromVecWithNul r.1 with
    | none => .ok (.ret, index, r.2)
    | some name =>
      if name = [] then .ok (.brk, index, r.2)
      else
        match readExact buf r.2 18 with
        | none => .error .eof
        | some (metadata, pos2) =>
          let preload_length := decodeU16 ((metadata.drop 4).take 2)
          match readExact buf pos2 preload_length with
          | none => .error .eof
          | some (preload, pos3) =>
            let meta : VPKMetadata :=
              { preload := preload
                crc32 := decodeU32 (metadata.take 4)
                preload_length := preload_length
                archive_index := decodeU16 ((metadata.drop 6).take 2)
                archive_offset := decodeU32 ((metadata.drop 8).take 4)
                file_length := decodeU32 ((metadata.drop 12).take 4)
                suffix := decodeU16 ((metadata.drop 16).take 2) }
            match meta.validate header with
            | .error e => .error e
            | .ok meta' =>
              let path := pfx ++ name ++ [46] ++ ext
              loopFiles buf header ext pfx fuel pos3 (alInsert index path meta')

/-- Middle loop of `populate_index` (lines 165-211): directories for one
extension. -/
def loopDirs (buf : Bytes) (header : VPKHeader) (ext : Bytes) :
    Nat → Nat → Index → Except VPKError (WalkExit × Index × Nat)
  | 0, pos, index => .ok (.ret, index, pos)
  | fuel + 1, pos, index =>
    let r := readUntilNul buf pos
    match fromVecWithNul r.1 with
    | none => .ok (.ret, index, r.2)
    | some dir =>
      if dir = [] then .ok (.brk, index, r.2)
      else
        match loopFiles buf header ext (dirPfx dir) (buf.length + 1) r.2 index with
        | .error e => .error e
        | .ok (.ret, index', pos') => .ok (.ret, index', pos')
        | .ok (.brk, index', pos') => loopDirs buf header ext fuel pos' index'

/-- Outer loop of `populate_index` (lines 152-212): extensions, with the
bound check of lines 153-157 at the top of each iteration.  The source
computes the bound `header.tree_length + HEADER_LENGTH as u32` in `u32`,
so the sum wraps modulo 2^32 before the comparison against the cursor
position. -/
def loopExts (buf : Bytes) (header : VPKHeader) :
    Nat → Nat → Index → Except VPKError (WalkExit × Index × Nat)
  | 0, pos, index => .ok (.ret, index, pos)
  | fuel + 1, pos, index =>
    if header.version > 0 ∧ pos > (header.tree_length + 28) % 4294967296 then
      .error .indexCorrupt
    else
      let r := readUntilNul buf pos
      match fromVecWithNul r.1 with
      | none => .ok (.ret, index, r.2)
      | some ext =>
        if ext = [] then .ok (.brk, index, r.2)
        else
          match loopDirs buf header ext (buf.length + 1) r.2 index with
          | .error e => .error e
          | .ok (.ret, index', pos') => .ok (.ret, index', pos')
          | .ok (.brk, index', pos') => loopExts buf header fuel pos' index'

/-- `VPK::populate_index`: walk the tree section starting right after the
header; returns the index and the cursor position after the walk. -/
def populate_index (buf : Bytes) (header : VPKHeader) : Except VPKError (Index × Nat) :=
  match loopExts buf header (buf.length + 1) 28 [] with
  | .error e => .error e
  | .ok (_, index, pos) => .ok (index, pos)

/-- `VPK::read_header`: the first 28 bytes as seven little-endian u32
values; `VPKHeader::new` rejects a wrong magic signature. -/
def read_header (buf : Bytes) : Except VPKError VPKHeader :=
  match readExact buf 0 28 with
  | none => .error .eof
  | some (hb, _) =>
    let w := fun i => decodeU32 ((hb.drop (4 * i)).take 4)
    if w 0 ≠ 0x55aa1234 then .error .invalidSignature
    else .ok ⟨w 0, w 1, w 2, w 3, w 4, w 5, w 6⟩

/-- `VPK::load_file_data`: for each index entry seek to its (corrected)
offset and read `file_length + preload_length` bytes; the source computes
that sum in `u32`, so it wraps modulo 2^32. -/
def load_file_data (buf : Bytes) : Index → List (Bytes × Bytes) → Except VPKError (List (Bytes × Bytes))
  | [], files => .ok files
  | (path, metadata) :: rest, files =>
    let file_length := (metadata.file_length + metadata.preload_length) % 4294967296
    match readExact buf metadata.archive_offset file_length with
    | none => .error .eof
    | some (file_data, _) => load_file_data buf rest (alInsert files path file_data)

/-- Result of a full `VPK::read`: the populated attributes of the `VPK`
object (`walk_pos` is the cursor position left by `populate_index`). -/
structure VPKFile where
  header : VPKHeader
  index : Index
  files : List (Bytes × Bytes)
  walk_pos : Nat
deriving DecidableEq

/-- `VPK::read`: read the header, populate the index, load the payloads. -/
def VPK.read (buf : Bytes) : Except VPKError VPKFile := do
  let header ← read_header buf
  let (index, walk_pos) ← populate_index buf header
  let files ← load_file_data buf index []
  .ok ⟨header, index, files, walk_pos⟩

/-! ## Writer (`create_vpk`, src/vpk.rs lines 245-375)

The cursors of the source are modelled by returning the bytes each step
appends; `create_vpk` concatenates them in the order the source writes
them.  The digest functions of the external `md5` and `crc` crates are
parameters `md5` and `crc`. -/

/-- An archive file set: logical path to payload bytes (`HashMap<String, Vec<u8>>`). -/
abbrev FileMap := List (Bytes × Bytes)

/-- Write-side grouping: extension to directory to base-name list. -/
abbrev Tree := List (Bytes × List (Bytes × List Bytes))

/-- Insert a base name into the directory level of the tree (push appends). -/
def dirsInsert (ds : List (Bytes × List Bytes)) (dir name : Bytes) : List (Bytes × List Bytes) :=
  match ds with
  | [] => [(dir, [name])]
  | (d, fs) :: rest =>
    if d = dir then (d, fs ++ [name]) :: rest else (d, fs) :: dirsInsert rest dir name

/-- Insert one decomposed path into the tree (lines 252-271). -/
def treeInsert (t : Tree) (ext dir name : Bytes) : Tree :=
  match t with
  | [] => [(ext, [(dir, [name])])]
  | (e, ds) :: rest =>
    if e = ext then (e, dirsInsert ds dir name) :: rest else (e, ds) :: treeInsert rest ext dir name

/-- Build the tree from the key list; `extension().unwrap()` panics (error)
when a path has no extension. -/
def buildTreeAux : Tree → List Bytes → Except VPKError Tree
  | t, [] => .ok t
  | t, p :: rest =>
    match extStem (fileNameOf p) with
    | none => .error .badPath
    | some (name, ext) => buildTreeAux (treeInsert t ext (parentDir p) name) rest

/-- Grouping pass of `create_vpk` over `vpk_data.keys()`. -/
def buildTree (keys : List Bytes) : Except VPKError Tree := buildTreeAux [] keys

/-- Tree-length computation of `create_vpk` (lines 273-285): 1, plus per
extension its length + 2, per directory its length + 2, per file its
base-name length + 19. -/
def treeLength (t : Tree) : Nat :=
  t.foldl (fun acc eds =>
    eds.2.foldl (fun acc2 dfs =>
      dfs.2.foldl (fun acc3 f => acc3 + f.length + 19) (acc2 + dfs.1.length + 2))
      (acc + eds.1.length + 2)) 1

/-- Emit one file entry (lines 301-329): the name with terminator and the
18 metadata bytes into the tree cursor, the payload into the data cursor.
`data_offset` is the running absolute offset of this payload. -/
def emitFile (crc : Bytes → Nat) (vpk_data : FileMap) (ext dir : Bytes)
    (tree_length data_offset : Nat) (file : Bytes) : Except VPKError (Bytes × Bytes) :=
  let filename := if 0 < ext.length then file ++ [46] ++ ext else file
  match alGet vpk_data (dir ++ [47] ++ filename) with
  | none => .error .missingFile
  | some filedata =>
    .ok (file ++ [0] ++
          u32le (crc filedata) ++ u16le 0 ++ u16le 32767 ++
          u32le (data_offset - tree_length - 28) ++ u32le filedata.length ++ u16le 65535,
         filedata)

/-- Emit the file entries of one directory in order. -/
def emitFiles (crc : Bytes → Nat) (vpk_data : FileMap) (ext dir : Bytes) (tree_length : Nat) :
    Nat → List Bytes → Except VPKError (Bytes × Bytes)
  | _, [] => .ok ([], [])
  | data_offset, f :: fs => do
    let (t1, d1) ← emitFile crc vpk_data ext dir tree_length data_offset f
    let (t2, d2) ← emitFiles crc vpk_data ext dir tree_length (data_offset + d1.length) fs
    .ok (t1 ++ t2, d1 ++ d2)

/-- Emit the directory blocks of one extension, each closed by a NUL. -/
def emitDirs (crc : Bytes → Nat) (vpk_data : FileMap) (ext : Bytes) (tree_length : Nat) :
    Nat → List (Bytes × List Bytes) → Except VPKError (Bytes × Bytes)
  | _, [] => .ok ([], [])
  | data_offset, (dir, fs) :: ds => do
    let (t1, d1) ← emitFiles crc vpk_data ext dir tree_length data_offset fs
    let (t2, d2) ← emitDirs crc vpk_data ext tree_length (data_offset + d1.length) ds
    .ok (dir ++ [0] ++ t1 ++ [0] ++ t2, d1 ++ d2)

/-- Emit the extension blocks, each closed by a NUL. -/
def emitExts (crc : Bytes → Nat) (vpk_data : FileMap) (tree_length : Nat) :
    Nat → Tree → Except VPKError (Bytes × Bytes)
  | _, [] => .ok ([], [])
  | data_offset, (ext, ds) :: es => do
    let (t1, d1) ← emitDirs crc vpk_data ext tree_length data_offset ds
    let (t2, d2) ← emitExts crc vpk_data tree_length (data_offset + d1.length) es
    .ok (ext ++ [0] ++ t1 ++ [0] ++ t2, d1 ++ d2)

/-- The 28 header bytes written by `create_vpk` (lines 340-350): signature,
version 2, tree length, embedded-chunk length, chunk-hash length 0,
self-hash length 48, signature length 0 (all little-endian u32). -/
def headerBytes (tree_length embed_chunk_length : Nat) : Bytes :=
  u32le 0x55aa1234 ++ u32le 2 ++ u32le tree_length ++ u32le embed_chunk_length ++
    u32le 0 ++ u32le 48 ++ u32le 0

/-- `create_vpk`: group the paths, compute the tree length, emit tree and
payload, build the 28-byte header, append the three 16-byte digests (tree,
empty chunk-hash section, whole file).  The embedded-chunk length
accumulated file by file equals the length of the emitted payload bytes. -/
def create_vpk (md5 : Bytes → Bytes) (crc : Bytes → Nat) (vpk_data : FileMap) :
    Except VPKError Bytes := do
  let tree ← buildTree (alKeys vpk_data)
  let tl := treeLength tree
  let (tb, db) ← emitExts crc vpk_data tl (tl + 28) tree
  let tree_bytes := tb ++ [0]
  let header := headerBytes tl db.length
  let tree_digest := md5 tree_bytes
  let chunk_hashes_digest := md5 []
  let file_digest := md5 (header ++ tree_bytes ++ db ++ tree_digest ++ chunk_hashes_digest)
  .ok (header ++ tree_bytes ++ db ++ (tree_digest ++ chunk_hashes_digest ++ file_digest))

/-! ## Patch merger (`patch_vpk`, src/vpk.rs lines 377-411) -/

/-- The literal suffix `.vmap_c`. -/
def vmapSuffixBytes : Bytes := [46, 118, 109, 97, 112, 95, 99]

/-- `str::ends_with(".vmap_c")`. -/
def endsWithVmap (p : Bytes) : Bool := vmapSuffixBytes.isSuffixOf p

/-- The literal file name `dota.vmap_c`. -/
def dotaName : Bytes := [100, 111, 116, 97, 46, 118, 109, 97, 112, 95, 99]

/-- First-some choice on options. -/
def orO {α : Type} (a b : Option α) : Option α :=
  match a with
  | some v => some v
  | none => b

/-- `patch_vpk`: find the first target key ending in `.vmap_c` (empty string
if none), move its payload to the same directory under `dota.vmap_c`
(`remove` + `insert`; the `unwrap` of a failed `remove` is `noMapFile`),
then insert every base entry whose path is not a key of the target. -/
def patch_vpk (base target : FileMap) : Except VPKError FileMap :=
  let target_vmap := ((alKeys target).find? endsWithVmap).getD []
  match alGet target target_vmap with
  | none => .error .noMapFile
  | some vmap_data =>
    let target1 := alInsert (alRemove target target_vmap) (withFileName target_vmap dotaName) vmap_data
    .ok (base.foldl (fun t kv => if (alGet t kv.1).isSome then t else alInsert t kv.1 kv.2) target1)

/-! ## Definitions modelled from the specification text

These definitions follow the wording of the specification (not the source);
the theorems below compare them against the source-derived definitions. -/

/-- Modelled from the spec, section 4.1 step 2: the logical path is
`directory + "/" + basename + "." + extension`, a single-space directory
maps to the empty prefix, and no dot is appended when the extension is
empty. -/
def specLogicalPath (dir name ext : Bytes) : Bytes :=
  (if dir = [32] then [] else dir ++ [47]) ++ name ++ (if ext = [] then [] else [46] ++ ext)

/-- Modelled from the spec, section 4.2 step 2: the tree length is 1 plus,
per extension, `len(extension)+2`, plus, per directory, `len(directory)+2`,
plus, per file, `len(basename)+19`. -/
def specTreeLength (t : Tree) : Nat :=
  1 + (t.map (fun eds => eds.1.length + 2 +
    (eds.2.map (fun dfs => dfs.1.length + 2 +
      (dfs.2.map (fun f => f.length + 19)).sum)).sum)).sum

/-! ## Parse-primitive lemmas -/

theorem takeUntilNul_append (s r : Bytes) (h : (0 : Nat) ∉ s) :
    takeUntilNul (s ++ 0 :: r) = s ++ [0] := by
  induction s with
  | nil => simp [takeUntilNul]
  | cons b t ih =>
    simp only [List.mem_cons] at h
    push_neg at h
    show (if b = 0 then [0] else b :: takeUntilNul (t ++ 0 :: r)) = (b :: t) ++ [0]
    rw [if_neg (fun hh => h.1 hh.symm), ih h.2]
    simp

theorem takeUntilNul_of_not_mem (l : Bytes) (h : (0 : Nat) ∉ l) : takeUntilNul l = l := by
  induction l with
  | nil => rfl
  | cons b t ih =>
    simp only [List.mem_cons] at h
    push_neg at h
    simp only [takeUntilNul, ih h.2]
    rw [if_neg (fun hh => h.1 hh.symm)]

theorem fromVecWithNul_some (s : Bytes) (h : (0 : Nat) ∉ s) :
    fromVecWithNul (s ++ [0]) = some s := by
  simp [fromVecWithNul, h]

theorem fromVecWithNul_none (v : Bytes) (h : (0 : Nat) ∉ v) : fromVecWithNul v = none := by
  match hv : v.getLast? with
  | none => simp [fromVecWithNul, hv]
  | some c =>
    have hc : c ∈ v := by
      obtain ⟨hne, heq⟩ := List.mem_getLast?_eq_getLast (l := v) (x := c)
        (by rw [Option.mem_def, hv])
      rw [heq]
      exact List.getLast_mem hne
    have : c ≠ 0 := fun hh => h (hh ▸ hc)
    simp only [fromVecWithNul, hv]
    cases c with
    | zero => exact absurd rfl this
    | succ n => rfl

theorem readUntilNul_spec (buf : Bytes) (pos : Nat) (s rest : Bytes)
    (hd : buf.drop pos = s ++ 0 :: rest) (hs : (0 : Nat) ∉ s) :
    readUntilNul buf pos = (s ++ [0], pos + (s.length + 1)) := by
  simp only [readUntilNul, hd, takeUntilNul_append s rest hs]
  simp

theorem readUntilNul_eof (buf : Bytes) (pos : Nat) (h : (0 : Nat) ∉ buf.drop pos) :
    readUntilNul buf pos = (buf.drop pos, pos + (buf.drop pos).length) := by
  simp [readUntilNul, takeUntilNul_of_not_mem _ h]

theorem readExact_spec (buf : Bytes) (pos n : Nat) (x rest : Bytes)
    (hd : buf.drop pos = x ++ rest) (hx : x.length = n) (hn : n ≠ 0) :
    readExact buf pos n = some (x, pos + n) := by
  have hlen : (buf.drop pos).length = buf.length - pos := by simp
  have hple : pos ≤ buf.length := by
    by_contra hc
    push_neg at hc
    have : buf.drop pos = [] := List.drop_eq_nil_of_le (by omega)
    rw [this] at hd
    have : x = [] := by
      cases x with
      | nil => rfl
      | cons a b => simp at hd
    rw [this] at hx
    simp at hx
    omega
  have hbound : pos + n ≤ buf.length := by
    rw [hd] at hlen
    simp at hlen
    omega
  simp only [readExact, if_neg hn, if_pos hbound, hd]
  rw [List.take_append_of_le_length (by omega), List.take_of_length_le (by omega)]

theorem readExact_zero (buf : Bytes) (pos : Nat) : readExact buf pos 0 = some ([], pos) := rfl

theorem drop_append_len (l₁ l₂ : Bytes) (n : Nat) (h : l₁.length = n) : (l₁ ++ l₂).drop n = l₂ := by
  subst h; simp

theorem take_append_len (l₁ l₂ : Bytes) (n : Nat) (h : l₁.length = n) : (l₁ ++ l₂).take n = l₁ := by
  subst h; simp

/-! ## Expected index entries of a written archive

`entriesFiles`/`entriesDirs`/`entriesTree` compute, for the groupings the
writer emits, the index entries the reader will reconstruct (with already
corrected absolute offsets), together with the offset after the group. -/

def entriesFiles (crc : Bytes → Nat) (vpk_data : FileMap) (ext dir pfx : Bytes) :
    Nat → List Bytes → Index × Nat
  | off, [] => ([], off)
  | off, f :: fs =>
    match alGet vpk_data (dir ++ [47] ++ (if 0 < ext.length then f ++ [46] ++ ext else f)) with
    | none => ([], off)
    | some fd =>
      let r := entriesFiles crc vpk_data ext dir pfx (off + fd.length) fs
      ((pfx ++ f ++ [46] ++ ext,
        ⟨[], crc fd % 4294967296, 0, 32767, off, fd.length, 65535⟩) :: r.1, r.2)

def entriesDirs (crc : Bytes → Nat) (vpk_data : FileMap) (ext : Bytes) :
    Nat → List (Bytes × List Bytes) → Index × Nat
  | off, [] => ([], off)
  | off, (dir, fs) :: ds =>
    let r1 := entriesFiles crc vpk_data ext dir (dirPfx dir) off fs
    let r2 := entriesDirs crc vpk_data ext r1.2 ds
    (r1.1 ++ r2.1, r2.2)

def entriesTree (crc : Bytes → Nat) (vpk_data : FileMap) :
    Nat → Tree → Index × Nat
  | off, [] => ([], off)
  | off, (ext, ds) :: es =>
    let r1 := entriesDirs crc vpk_data ext off ds
    let r2 := entriesTree crc vpk_data r1.2 es
    (r1.1 ++ r2.1, r2.2)

theorem emitFile_inv (crc : Bytes → Nat) (F : FileMap) (ext dir : Bytes) (tl off : Nat)
    (f t1 d1 : Bytes) (h : emitFile crc F ext dir tl off f = .ok (t1, d1)) :
    alGet F (dir ++ [47] ++ (if 0 < ext.length then f ++ [46] ++ ext else f)) = some d1 ∧
    t1 = f ++ [0] ++ (u32le (crc d1) ++ u16le 0 ++ u16le 32767 ++
      u32le (off - tl - 28) ++ u32le d1.length ++ u16le 65535) := by
  simp only [emitFile] at h
  split at h
  · cases h
  · rename_i fd hlook
    simp only [Except.ok.injEq, Prod.mk.injEq] at h
    obtain ⟨h1, h2⟩ := h
    subst h2
    exact ⟨hlook, by rw [← h1]; simp⟩

theorem emitFiles_cons_inv (crc : Bytes → Nat) (F : FileMap) (ext dir : Bytes) (tl off : Nat)
    (f : Bytes) (fs : List Bytes) (t d : Bytes)
    (h : emitFiles crc F ext dir tl off (f :: fs) = .ok (t, d)) :
    ∃ t1 d1 t2 d2, emitFile crc F ext dir tl off f = .ok (t1, d1) ∧
      emitFiles crc F ext dir tl (off + d1.length) fs = .ok (t2, d2) ∧
      t = t1 ++ t2 ∧ d = d1 ++ d2 := by
  simp only [emitFiles, bind, Except.bind] at h
  split at h
  · cases h
  · rename_i p heq
    obtain ⟨t1, d1⟩ := p
    split at h
    · cases h
    · rename_i q heq2
      obtain ⟨t2, d2⟩ := q
      simp only [Except.ok.injEq, Prod.mk.injEq] at h
      exact ⟨t1, d1, t2, d2, heq, heq2, h.1.symm, h.2.symm⟩

theorem emitFiles_nil_inv (crc : Bytes → Nat) (F : FileMap) (ext dir : Bytes) (tl off : Nat)
    (t d : Bytes) (h : emitFiles crc F ext dir tl off [] = .ok (t, d)) : t = [] ∧ d = [] := by
  simp only [emitFiles, Except.ok.injEq, Prod.mk.injEq] at h
  exact ⟨h.1.symm, h.2.symm⟩

theorem emitDirs_cons_inv (crc : Bytes → Nat) (F : FileMap) (ext : Bytes) (tl off : Nat)
    (dir : Bytes) (fs : List Bytes) (ds : List (Bytes × List Bytes)) (t d : Bytes)
    (h : emitDirs crc F ext tl off ((dir, fs) :: ds) = .ok (t, d)) :
    ∃ t1 d1 t2 d2, emitFiles crc F ext dir tl off fs = .ok (t1, d1) ∧
      emitDirs crc F ext tl (off + d1.length) ds = .ok (t2, d2) ∧
      t = dir ++ [0] ++ t1 ++ [0] ++ t2 ∧ d = d1 ++ d2 := by
  simp only [emitDirs, bind, Except.bind] at h
  split at h
  · cases h
  · rename_i p heq
    obtain ⟨t1, d1⟩ := p
    split at h
    · cases h
    · rename_i q heq2
      obtain ⟨t2, d2⟩ := q
      simp only [Except.ok.injEq, Prod.mk.injEq] at h
      exact ⟨t1, d1, t2, d2, heq, heq2, h.1.symm, h.2.symm⟩

theorem emitDirs_nil_inv (crc : Bytes → Nat) (F : FileMap) (ext : Bytes) (tl off : Nat)
    (t d : Bytes) (h : emitDirs crc F ext tl off [] = .ok (t, d)) : t = [] ∧ d = [] := by
  simp only [emitDirs, Except.ok.injEq, Prod.mk.injEq] at h
  exact ⟨h.1.symm, h.2.symm⟩

theorem emitExts_cons_inv (crc : Bytes → Nat) (F : FileMap) (tl off : Nat)
    (ext : Bytes) (ds : List (Bytes × List Bytes)) (es : Tree) (t d : Bytes)
    (h : emitExts crc F tl off ((ext, ds) :: es) = .ok (t, d)) :
    ∃ t1 d1 t2 d2, emitDirs crc F ext tl off ds = .ok (t1, d1) ∧
      emitExts crc F tl (off + d1.length) es = .ok (t2, d2) ∧
      t = ext ++ [0] ++ t1 ++ [0] ++ t2 ∧ d = d1 ++ d2 := by
  simp only [emitExts, bind, Except.bind] at h
  split at h
  · cases h
  · rename_i p heq
    obtain ⟨t1, d1⟩ := p
    split at h
    · cases h
    · rename_i q heq2
      obtain ⟨t2, d2⟩ := q
      simp only [Except.ok.injEq, Prod.mk.injEq] at h
      exact ⟨t1, d1, t2, d2, heq, heq2, h.1.symm, h.2.symm⟩

theorem emitExts_nil_inv (crc : Bytes → Nat) (F : FileMap) (tl off : Nat)
    (t d : Bytes) (h : emitExts crc F tl off [] = .ok (t, d)) : t = [] ∧ d = [] := by
  simp only [emitExts, Except.ok.injEq, Prod.mk.injEq] at h
  exact ⟨h.1.symm, h.2.symm⟩

theorem entriesFiles_off (crc : Bytes → Nat) (F : FileMap) (ext dir pfx : Bytes)
    (tl : Nat) :
    ∀ (fs : List Bytes) (off : Nat) (t d : Bytes),
    emitFiles crc F ext dir tl off fs = .ok (t, d) →
    (entriesFiles crc F ext dir pfx off fs).2 = off + d.length := by
  intro fs
  induction fs with
  | nil =>
    intro off t d h
    obtain ⟨rfl, rfl⟩ := emitFiles_nil_inv crc F ext dir tl off t d h
    simp [entriesFiles]
  | cons f fs ih =>
    intro off t d h
    obtain ⟨t1, d1, t2, d2, h1, h2, rfl, rfl⟩ := emitFiles_cons_inv crc F ext dir tl off f fs t d h
    obtain ⟨hlook, rfl⟩ := emitFile_inv crc F ext dir tl off f t1 d1 h1
    simp only [entriesFiles, hlook]
    rw [ih (off + d1.length) t2 d2 h2]
    simp
    omega

theorem entriesDirs_off (crc : Bytes → Nat) (F : FileMap) (ext : Bytes) (tl : Nat) :
    ∀ (ds : List (Bytes × List Bytes)) (off : Nat) (t d : Bytes),
    emitDirs crc F ext tl off ds = .ok (t, d) →
    (entriesDirs crc F ext off ds).2 = off + d.length := by
  intro ds
  induction ds with
  | nil =>
    intro off t d h
    obtain ⟨rfl, rfl⟩ := emitDirs_nil_inv crc F ext tl off t d h
    simp [entriesDirs]
  | cons dfs ds ih =>
    obtain ⟨dir, fs⟩ := dfs
    intro off t d h
    obtain ⟨t1, d1, t2, d2, h1, h2, rfl, rfl⟩ := emitDirs_cons_inv crc F ext tl off dir fs ds t d h
    simp only [entriesDirs]
    rw [entriesFiles_off crc F ext dir (dirPfx dir) tl fs off t1 d1 h1, ih (off + d1.length) t2 d2 h2]
    simp
    omega

theorem entriesTree_off (crc : Bytes → Nat) (F : FileMap) (tl : Nat) :
    ∀ (es : Tree) (off : Nat) (t d : Bytes),
    emitExts crc F tl off es = .ok (t, d) →
    (entriesTree crc F off es).2 = off + d.length := by
  intro es
  induction es with
  | nil =>
    intro off t d h
    obtain ⟨rfl, rfl⟩ := emitExts_nil_inv crc F tl off t d h
    simp [entriesTree]
  | cons eds es ih =>
    obtain ⟨ext, ds⟩ := eds
    intro off t d h
    obtain ⟨t1, d1, t2, d2, h1, h2, rfl, rfl⟩ := emitExts_cons_inv crc F tl off ext ds es t d h
    simp only [entriesTree]
    rw [entriesDirs_off crc F ext tl ds off t1 d1 h1, ih (off + d1.length) t2 d2 h2]
    simp
    omega

theorem entriesFiles_off_ge (crc : Bytes → Nat) (F : FileMap) (ext dir pfx : Bytes) :
    ∀ (fs : List Bytes) (off : Nat),
    off ≤ (entriesFiles crc F ext dir pfx off fs).2 ∧
    ∀ e ∈ (entriesFiles crc F ext dir pfx off fs).1, off ≤ e.2.archive_offset := by
  intro fs
  induction fs with
  | nil =>
    intro off
    exact ⟨le_refl _, by simp [entriesFiles]⟩
  | cons f fs ih =>
    intro off
    simp only [entriesFiles]
    cases hx : alGet F (dir ++ [47] ++ (if 0 < ext.length then f ++ [46] ++ ext else f)) with
    | none => exact ⟨le_refl _, by simp⟩
    | some fd =>
      dsimp only
      obtain ⟨h1, h2⟩ := ih (off + fd.length)
      refine ⟨by omega, ?_⟩
      intro e he
      rw [List.mem_cons] at he
      rcases he with rfl | he
      · exact le_refl _
      · have := h2 e he
        omega

theorem entriesDirs_off_ge (crc : Bytes → Nat) (F : FileMap) (ext : Bytes) :
    ∀ (ds : List (Bytes × List Bytes)) (off : Nat),
    off ≤ (entriesDirs crc F ext off ds).2 ∧
    ∀ e ∈ (entriesDirs crc F ext off ds).1, off ≤ e.2.archive_offset := by
  intro ds
  induction ds with
  | nil =>
    intro off
    exact ⟨le_refl _, by simp [entriesDirs]⟩
  | cons dfs ds ih =>
    obtain ⟨dir, fs⟩ := dfs
    intro off
    simp only [entriesDirs]
    obtain ⟨hf1, hf2⟩ := entriesFiles_off_ge crc F ext dir (dirPfx dir) fs off
    obtain ⟨hd1, hd2⟩ := ih (entriesFiles crc F ext dir (dirPfx dir) off fs).2
    refine ⟨by omega, ?_⟩
    intro e he
    rw [List.mem_append] at he
    rcases he with he | he
    · exact hf2 e he
    · have := hd2 e he
      omega

theorem entriesTree_off_ge (crc : Bytes → Nat) (F : FileMap) :
    ∀ (es : Tree) (off : Nat),
    off ≤ (entriesTree crc F off es).2 ∧
    ∀ e ∈ (entriesTree crc F off es).1, off ≤ e.2.archive_offset := by
  intro es
  induction es with
  | nil =>
    intro off
    exact ⟨le_refl _, by simp [entriesTree]⟩
  | cons eds es ih =>
    obtain ⟨ext, ds⟩ := eds
    intro off
    simp only [entriesTree]
    obtain ⟨hf1, hf2⟩ := entriesDirs_off_ge crc F ext ds off
    obtain ⟨hd1, hd2⟩ := ih (entriesDirs crc F ext off ds).2
    refine ⟨by omega, ?_⟩
    intro e he
    rw [List.mem_append] at he
    rcases he with he | he
    · exact hf2 e he
    · have := hd2 e he
      omega

/-! ## Tree byte lengths: the emitted tree section has exactly the length
computed analytically by `create_vpk` before emission. -/

theorem emitFiles_tlen (crc : Bytes → Nat) (F : FileMap) (ext dir : Bytes) (tl : Nat) :
    ∀ (fs : List Bytes) (off : Nat) (t d : Bytes),
    emitFiles crc F ext dir tl off fs = .ok (t, d) →
    t.length = (fs.map (fun f => f.length + 19)).sum := by
  intro fs
  induction fs with
  | nil =>
    intro off t d h
    obtain ⟨rfl, rfl⟩ := emitFiles_nil_inv crc F ext dir tl off t d h
    simp
  | cons f fs ih =>
    intro off t d h
    obtain ⟨t1, d1, t2, d2, h1, h2, rfl, rfl⟩ := emitFiles_cons_inv crc F ext dir tl off f fs t d h
    obtain ⟨hlook, rfl⟩ := emitFile_inv crc F ext dir tl off f t1 d1 h1
    rw [List.map_cons, List.sum_cons, ← ih (off + d1.length) t2 d2 h2]
    simp [u32le, u16le]
    omega

theorem emitDirs_tlen (crc : Bytes → Nat) (F : FileMap) (ext : Bytes) (tl : Nat) :
    ∀ (ds : List (Bytes × List Bytes)) (off : Nat) (t d : Bytes),
    emitDirs crc F ext tl off ds = .ok (t, d) →
    t.length = (ds.map (fun dfs => dfs.1.length + 2 +
      (dfs.2.map (fun f => f.length + 19)).sum)).sum := by
  intro ds
  induction ds with
  | nil =>
    intro off t d h
    obtain ⟨rfl, rfl⟩ := emitDirs_nil_inv crc F ext tl off t d h
    simp
  | cons dfs ds ih =>
    obtain ⟨dir, fs⟩ := dfs
    intro off t d h
    obtain ⟨t1, d1, t2, d2, h1, h2, rfl, rfl⟩ := emitDirs_cons_inv crc F ext tl off dir fs ds t d h
    rw [List.map_cons, List.sum_cons, ← ih (off + d1.length) t2 d2 h2,
      ← emitFiles_tlen crc F ext dir tl fs off t1 d1 h1]
    simp
    omega

theorem emitExts_tlen (crc : Bytes → Nat) (F : FileMap) (tl : Nat) :
    ∀ (es : Tree) (off : Nat) (t d : Bytes),
    emitExts crc F tl off es = .ok (t, d) →
    t.length = (es.map (fun eds => eds.1.length + 2 +
      (eds.2.map (fun dfs => dfs.1.length + 2 +
        (dfs.2.map (fun f => f.length + 19)).sum)).sum)).sum := by
  intro es
  induction es with
  | nil =>
    intro off t d h
    obtain ⟨rfl, rfl⟩ := emitExts_nil_inv crc F tl off t d h
    simp
  | cons eds es ih =>
    obtain ⟨ext, ds⟩ := eds
    intro off t d h
    obtain ⟨t1, d1, t2, d2, h1, h2, rfl, rfl⟩ := emitExts_cons_inv crc F tl off ext ds es t d h
    rw [List.map_cons, List.sum_cons, ← ih (off + d1.length) t2 d2 h2,
      ← emitDirs_tlen crc F ext tl ds off t1 d1 h1]
    simp
    omega

theorem foldl_add_shift {α : Type} (g : α → Nat) : ∀ (l : List α) (a : Nat),
    l.foldl (fun acc f => acc + g f) a = a + (l.map g).sum := by
  intro l
  induction l with
  | nil => simp
  | cons f fs ih =>
    intro a
    simp only [List.foldl_cons, List.map_cons, List.sum_cons, ih]
    omega

/-- The accumulator loop of lines 273-285 computes exactly the analytic
tree length of the specification. -/
theorem treeLength_eq_spec (t : Tree) : treeLength t = specTreeLength t := by
  have hfileF : (fun (acc3 : Nat) (f : Bytes) => acc3 + f.length + 19) =
      (fun acc3 f => acc3 + (f.length + 19)) := by
    funext a f
    omega
  have hfile : ∀ (fs : List Bytes) (a : Nat),
      fs.foldl (fun acc3 f => acc3 + f.length + 19) a =
      a + (fs.map (fun f => f.length + 19)).sum := by
    intro fs a
    rw [hfileF, foldl_add_shift (fun f => f.length + 19) fs a]
  have hdirF : (fun (acc2 : Nat) (dfs : Bytes × List Bytes) =>
      dfs.2.foldl (fun acc3 f => acc3 + f.length + 19) (acc2 + dfs.1.length + 2)) =
      (fun acc2 dfs => acc2 +
        (dfs.1.length + 2 + (dfs.2.map (fun f => f.length + 19)).sum)) := by
    funext a dfs
    rw [hfile]
    omega
  have hdir : ∀ (ds : List (Bytes × List Bytes)) (a : Nat),
      ds.foldl (fun acc2 dfs =>
        dfs.2.foldl (fun acc3 f => acc3 + f.length + 19) (acc2 + dfs.1.length + 2)) a =
      a + (ds.map (fun dfs => dfs.1.length + 2 +
        (dfs.2.map (fun f => f.length + 19)).sum)).sum := by
    intro ds a
    rw [hdirF, foldl_add_shift _ ds a]
  have hextF : (fun (acc : Nat) (eds : Bytes × List (Bytes × List Bytes)) =>
      eds.2.foldl (fun acc2 dfs =>
        dfs.2.foldl (fun acc3 f => acc3 + f.length + 19) (acc2 + dfs.1.length + 2))
        (acc + eds.1.length + 2)) =
      (fun acc eds => acc + (eds.1.length + 2 +
        (eds.2.map (fun dfs => dfs.1.length + 2 +
          (dfs.2.map (fun f => f.length + 19)).sum)).sum)) := by
    funext a eds
    rw [hdir]
    omega
  rw [treeLength, specTreeLength, hextF, foldl_add_shift _ t 1]

/-- Each emitted file block is at least one byte, so block counts bound
byte counts (used for fuel accounting). -/
theorem length_le_sum_map_add {α : Type} (g : α → Nat) (c : Nat) (hc : 1 ≤ c) :
    ∀ (l : List α), l.length ≤ (l.map (fun f => g f + c)).sum := by
  intro l
  induction l with
  | nil => simp
  | cons f fs ih =>
    simp only [List.length_cons, List.map_cons, List.sum_cons]
    omega

theorem drop_cons_chunk (s X : Bytes) (c : Nat) :
    (s ++ c :: X).drop (s.length + 1) = X := by
  rw [show s ++ c :: X = (s ++ [c]) ++ X by simp]
  exact drop_append_len _ _ _ (by simp)

/-! ## Parsing back an emitted tree section -/

theorem parseFiles (buf : Bytes) (hdr : VPKHeader) (crc : Bytes → Nat) (F : FileMap)
    (ext dir pfx : Bytes) (tl : Nat) (htl : hdr.tree_length = tl) :
    ∀ (fs : List Bytes) (fuel off pos : Nat) (index : Index) (t d rest : Bytes),
    emitFiles crc F ext dir tl off fs = .ok (t, d) →
    (∀ f ∈ fs, f ≠ [] ∧ (0 : Nat) ∉ f) →
    28 + tl ≤ off →
    off + d.length < 4294967296 →
    buf.drop pos = t ++ 0 :: rest →
    fs.length < fuel →
    loopFiles buf hdr ext pfx fuel pos index =
      .ok (.brk, (entriesFiles crc F ext dir pfx off fs).1.foldl
        (fun i e => alInsert i e.1 e.2) index, pos + (t.length + 1)) := by
  intro fs
  induction fs with
  | nil =>
    intro fuel off pos index t d rest hemit hfs hle hsz hb hfuel
    obtain ⟨rfl, rfl⟩ := emitFiles_nil_inv crc F ext dir tl off t d hemit
    cases fuel with
    | zero => omega
    | succ fu =>
      have hr : readUntilNul buf pos = ([0], pos + 1) := by
        simpa using readUntilNul_spec buf pos [] rest (by simpa using hb) (by simp)
      have hv : fromVecWithNul [0] = some [] := fromVecWithNul_some [] (by simp)
      simp [loopFiles, hr, hv, entriesFiles]
  | cons f fs ih =>
    intro fuel off pos index t d rest hemit hfs hle hsz hb hfuel
    obtain ⟨t1, d1, t2, d2, h1, h2, rfl, rfl⟩ :=
      emitFiles_cons_inv crc F ext dir tl off f fs t d hemit
    obtain ⟨hlook, rfl⟩ := emitFile_inv crc F ext dir tl off f t1 d1 h1
    set mb : Bytes := u32le (crc d1) ++ u16le 0 ++ u16le 32767 ++
      u32le (off - tl - 28) ++ u32le d1.length ++ u16le 65535 with hmb
    obtain ⟨hf1, hf2⟩ := hfs f (by simp)
    cases fuel with
    | zero => simp at hfuel
    | succ fu =>
      have hmbl : mb.length = 18 := by simp [hmb, u32le, u16le]
      have hb1 : buf.drop pos = f ++ 0 :: (mb ++ (t2 ++ 0 :: rest)) := by
        rw [hb]
        simp
      have hr : readUntilNul buf pos = (f ++ [0], pos + (f.length + 1)) :=
        readUntilNul_spec buf pos f _ hb1 hf2
      have hv : fromVecWithNul (f ++ [0]) = some f := fromVecWithNul_some f hf2
      have hb2 : buf.drop (pos + (f.length + 1)) = mb ++ (t2 ++ 0 :: rest) := by
        rw [← List.drop_drop, hb1]
        exact drop_cons_chunk f _ 0
      have hx : readExact buf (pos + (f.length + 1)) 18 =
          some (mb, pos + (f.length + 1) + 18) :=
        readExact_spec buf _ 18 mb _ hb2 hmbl (by omega)
      have hd1lt : d1.length < 4294967296 := by
        simp at hsz
        omega
      have hofflt : off < 4294967296 := by omega
      have hdec1 : decodeU32 (mb.take 4) = crc d1 % 4294967296 := by
        rw [show mb.take 4 = u32le (crc d1) by simp [hmb, u32le, u16le]]
        exact decodeU32_u32le _
      have hdec2 : decodeU16 ((mb.drop 4).take 2) = 0 := by
        rw [show (mb.drop 4).take 2 = u16le 0 by simp [hmb, u32le, u16le]]
        simp [decodeU16_u16le]
      have hdec3 : decodeU16 ((mb.drop 6).take 2) = 32767 := by
        rw [show (mb.drop 6).take 2 = u16le 32767 by simp [hmb, u32le, u16le]]
        simp [decodeU16_u16le]
      have hdec4 : decodeU32 ((mb.drop 8).take 4) = off - tl - 28 := by
        rw [show (mb.drop 8).take 4 = u32le (off - tl - 28) by simp [hmb, u32le, u16le]]
        rw [decodeU32_u32le]
        exact Nat.mod_eq_of_lt (by omega)
      have hdec5 : decodeU32 ((mb.drop 12).take 4) = d1.length := by
        rw [show (mb.drop 12).take 4 = u32le d1.length by simp [hmb, u32le, u16le]]
        rw [decodeU32_u32le]
        exact Nat.mod_eq_of_lt hd1lt
      have hdec6 : decodeU16 ((mb.drop 16).take 2) = 65535 := by
        rw [show (mb.drop 16).take 2 = u16le 65535 by simp [hmb, u32le, u16le]]
        simp [decodeU16_u16le]
      have hval : VPKMetadata.validate
          ⟨[], crc d1 % 4294967296, 0, 32767, off - tl - 28, d1.length, 65535⟩ hdr =
          .ok ⟨[], crc d1 % 4294967296, 0, 32767, off, d1.length, 65535⟩ := by
        simp only [VPKMetadata.validate, htl]
        norm_num
        rw [show off - tl - 28 + 28 + tl = off by omega]
        exact Nat.mod_eq_of_lt hofflt
      have hb3 : buf.drop (pos + (f.length + 1) + 18) = t2 ++ 0 :: rest := by
        rw [← List.drop_drop, hb2]
        exact drop_append_len mb _ 18 hmbl
      have ihr := ih fu (off + d1.length) (pos + (f.length + 1) + 18)
        (alInsert index (pfx ++ f ++ [46] ++ ext)
          ⟨[], crc d1 % 4294967296, 0, 32767, off, d1.length, 65535⟩)
        t2 d2 rest h2 (fun g hg => hfs g (by simp [hg])) (by omega)
        (by simp at hsz ⊢; omega) hb3 (by simp at hfuel; omega)
      simp only [loopFiles, hr, hv, hx, hdec1, hdec2, hdec3, hdec4, hdec5, hdec6,
        readExact_zero, hval, if_neg hf1, ihr]
      simp only [entriesFiles, hlook, List.foldl_cons]
      have hlen : pos + (List.length (f ++ [0] ++ mb ++ t2) + 1) =
          pos + (List.length f + 1) + 18 + (List.length t2 + 1) := by
        simp [hmbl]
        omega
      rw [hlen]

/-- String well-formedness of a write-side tree: every extension, directory
and base name is nonempty and NUL-free, and no directory is the single
space (which the reader would re-interpret as the archive root). -/
def treeStringsOk (t : Tree) : Prop :=
  ∀ eds ∈ t, eds.1 ≠ [] ∧ (0 : Nat) ∉ eds.1 ∧
    ∀ dfs ∈ eds.2, dfs.1 ≠ [] ∧ dfs.1 ≠ [32] ∧ (0 : Nat) ∉ dfs.1 ∧
      ∀ f ∈ dfs.2, f ≠ [] ∧ (0 : Nat) ∉ f

theorem parseDirs (buf : Bytes) (hdr : VPKHeader) (crc : Bytes → Nat) (F : FileMap)
    (ext : Bytes) (tl : Nat) (htl : hdr.tree_length = tl) :
    ∀ (ds : List (Bytes × List Bytes)) (fuel off pos : Nat) (index : Index) (t d rest : Bytes),
    emitDirs crc F ext tl off ds = .ok (t, d) →
    (∀ dfs ∈ ds, dfs.1 ≠ [] ∧ dfs.1 ≠ [32] ∧ (0 : Nat) ∉ dfs.1 ∧
      ∀ f ∈ dfs.2, f ≠ [] ∧ (0 : Nat) ∉ f) →
    28 + tl ≤ off →
    off + d.length < 4294967296 →
    buf.drop pos = t ++ 0 :: rest →
    ds.length < fuel →
    loopDirs buf hdr ext fuel pos index =
      .ok (.brk, (entriesDirs crc F ext off ds).1.foldl
        (fun i e => alInsert i e.1 e.2) index, pos + (t.length + 1)) := by
  intro ds
  induction ds with
  | nil =>
    intro fuel off pos index t d rest hemit hds hle hsz hb hfuel
    obtain ⟨rfl, rfl⟩ := emitDirs_nil_inv crc F ext tl off t d hemit
    cases fuel with
    | zero => omega
    | succ fu =>
      have hr : readUntilNul buf pos = ([0], pos + 1) := by
        simpa using readUntilNul_spec buf pos [] rest (by simpa using hb) (by simp)
      have hv : fromVecWithNul [0] = some [] := fromVecWithNul_some [] (by simp)
      simp [loopDirs, hr, hv, entriesDirs]
  | cons dfs ds ih =>
    obtain ⟨dir, fs⟩ := dfs
    intro fuel off pos index t d rest hemit hds hle hsz hb hfuel
    obtain ⟨t1, d1, t2, d2, h1, h2, rfl, rfl⟩ :=
      emitDirs_cons_inv crc F ext tl off dir fs ds t d hemit
    obtain ⟨hdir1, hdir32, hdir2, hfs⟩ := hds (dir, fs) (by simp)
    cases fuel with
    | zero => simp at hfuel
    | succ fu =>
      have hb1 : buf.drop pos = dir ++ 0 :: (t1 ++ 0 :: (t2 ++ 0 :: rest)) := by
        rw [hb]
        simp
      have hr : readUntilNul buf pos = (dir ++ [0], pos + (dir.length + 1)) :=
        readUntilNul_spec buf pos dir _ hb1 hdir2
      have hv : fromVecWithNul (dir ++ [0]) = some dir := fromVecWithNul_some dir hdir2
      have hb2 : buf.drop (pos + (dir.length + 1)) = t1 ++ 0 :: (t2 ++ 0 :: rest) := by
        rw [← List.drop_drop, hb1]
        exact drop_cons_chunk dir _ 0
      have hfsfuel : fs.length < buf.length + 1 := by
        have hts := emitFiles_tlen crc F ext dir tl fs off t1 d1 h1
        have h5 := congrArg List.length hb
        simp at h5
        have h6 := length_le_sum_map_add List.length 19 (by omega) fs
        rw [← hts] at h6
        omega
      have hPF := parseFiles buf hdr crc F ext dir (dirPfx dir) tl htl fs
        (buf.length + 1) off (pos + (dir.length + 1)) index t1 d1 (t2 ++ 0 :: rest)
        h1 hfs hle (by simp at hsz ⊢; omega) hb2 hfsfuel
      have hb3 : buf.drop (pos + (dir.length + 1) + (t1.length + 1)) = t2 ++ 0 :: rest := by
        rw [← List.drop_drop, hb2]
        exact drop_cons_chunk t1 _ 0
      have ihr := ih fu (off + d1.length) (pos + (dir.length + 1) + (t1.length + 1))
        ((entriesFiles crc F ext dir (dirPfx dir) off fs).1.foldl
          (fun i e => alInsert i e.1 e.2) index)
        t2 d2 rest h2 (fun g hg => hds g (by simp [hg])) (by omega)
        (by simp at hsz ⊢; omega) hb3 (by simp at hfuel; omega)
      simp only [loopDirs, hr, hv, if_neg hdir1, hPF, ihr]
      simp only [entriesDirs, entriesFiles_off crc F ext dir (dirPfx dir) tl fs off t1 d1 h1,
        List.foldl_append]
      have hlen : pos + (List.length (dir ++ [0] ++ t1 ++ [0] ++ t2) + 1) =
          pos + (dir.length + 1) + (t1.length + 1) + (t2.length + 1) := by
        simp
        omega
      rw [hlen]

theorem parseExts (buf : Bytes) (hdr : VPKHeader) (crc : Bytes → Nat) (F : FileMap)
    (tl : Nat) (htl : hdr.tree_length = tl) :
    ∀ (es : Tree) (fuel off pos : Nat) (index : Index) (t d rest : Bytes),
    emitExts crc F tl off es = .ok (t, d) →
    treeStringsOk es →
    28 + tl ≤ off →
    off + d.length < 4294967296 →
    buf.drop pos = t ++ 0 :: rest →
    pos + (t.length + 1) ≤ 28 + tl →
    es.length < fuel →
    loopExts buf hdr fuel pos index =
      .ok (.brk, (entriesTree crc F off es).1.foldl
        (fun i e => alInsert i e.1 e.2) index, pos + (t.length + 1)) := by
  intro es
  induction es with
  | nil =>
    intro fuel off pos index t d rest hemit hes hle hsz hb hbound hfuel
    obtain ⟨rfl, rfl⟩ := emitExts_nil_inv crc F tl off t d hemit
    cases fuel with
    | zero => omega
    | succ fu =>
      have hr : readUntilNul buf pos = ([0], pos + 1) := by
        simpa using readUntilNul_spec buf pos [] rest (by simpa using hb) (by simp)
      have hv : fromVecWithNul [0] = some [] := fromVecWithNul_some [] (by simp)
      have hguard : ¬(hdr.version > 0 ∧ pos > (hdr.tree_length + 28) % 4294967296) := by
        rw [htl, Nat.mod_eq_of_lt (show tl + 28 < 4294967296 by omega)]
        simp at hbound
        omega
      simp [loopExts, hr, hv, if_neg hguard, entriesTree]
  | cons eds es ih =>
    obtain ⟨ext, ds⟩ := eds
    intro fuel off pos index t d rest hemit hes hle hsz hb hbound hfuel
    obtain ⟨t1, d1, t2, d2, h1, h2, rfl, rfl⟩ :=
      emitExts_cons_inv crc F tl off ext ds es t d hemit
    obtain ⟨hext1, hext2, hds⟩ := hes (ext, ds) (by simp)
    cases fuel with
    | zero => simp at hfuel
    | succ fu =>
      have hguard : ¬(hdr.version > 0 ∧ pos > (hdr.tree_length + 28) % 4294967296) := by
        rw [htl, Nat.mod_eq_of_lt (show tl + 28 < 4294967296 by omega)]
        simp at hbound
        omega
      have hb1 : buf.drop pos = ext ++ 0 :: (t1 ++ 0 :: (t2 ++ 0 :: rest)) := by
        rw [hb]
        simp
      have hr : readUntilNul buf pos = (ext ++ [0], pos + (ext.length + 1)) :=
        readUntilNul_spec buf pos ext _ hb1 hext2
      have hv : fromVecWithNul (ext ++ [0]) = some ext := fromVecWithNul_some ext hext2
      have hb2 : buf.drop (pos + (ext.length + 1)) = t1 ++ 0 :: (t2 ++ 0 :: rest) := by
        rw [← List.drop_drop, hb1]
        exact drop_cons_chunk ext _ 0
      have hdsfuel : ds.length < buf.length + 1 := by
        have hts := emitDirs_tlen crc F ext tl ds off t1 d1 h1
        have h5 := congrArg List.length hb
        simp at h5
        have h6 := length_le_sum_map_add
          (fun dfs => dfs.1.length + (dfs.2.map (fun f => f.length + 19)).sum) 2 (by omega) ds
        have h7 : (ds.map (fun dfs => dfs.1.length +
            (dfs.2.map (fun f => f.length + 19)).sum + 2)).sum =
            (ds.map (fun dfs => dfs.1.length + 2 +
            (dfs.2.map (fun f => f.length + 19)).sum)).sum := by
          congr 1
          apply List.map_congr_left
          intro x _
          omega
        rw [h7] at h6
        rw [← hts] at h6
        omega
      have hPD := parseDirs buf hdr crc F ext tl htl ds
        (buf.length + 1) off (pos + (ext.length + 1)) index t1 d1 (t2 ++ 0 :: rest)
        h1 hds hle (by simp at hsz ⊢; omega) hb2 hdsfuel
      have hb3 : buf.drop (pos + (ext.length + 1) + (t1.length + 1)) = t2 ++ 0 :: rest := by
        rw [← List.drop_drop, hb2]
        exact drop_cons_chunk t1 _ 0
      have ihr := ih fu (off + d1.length) (pos + (ext.length + 1) + (t1.length + 1))
        ((entriesDirs crc F ext off ds).1.foldl
          (fun i e => alInsert i e.1 e.2) index)
        t2 d2 rest h2 (fun g hg => hes g (by simp [hg])) (by omega)
        (by simp at hsz ⊢; omega) hb3 (by simp at hbound ⊢; omega)
        (by simp at hfuel; omega)
      simp only [loopExts, hr, hv, if_neg hext1, if_neg hguard, hPD, ihr]
      simp only [entriesTree, entriesDirs_off crc F ext tl ds off t1 d1 h1,
        List.foldl_append]
      have hlen : pos + (List.length (ext ++ [0] ++ t1 ++ [0] ++ t2) + 1) =
          pos + (ext.length + 1) + (t1.length + 1) + (t2.length + 1) := by
        simp
        omega
      rw [hlen]

theorem create_vpk_inv (md5 : Bytes → Bytes) (crc : Bytes → Nat) (F : FileMap) (buf : Bytes)
    (h : create_vpk md5 crc F = .ok buf) :
    ∃ tree tb db, buildTree (alKeys F) = .ok tree ∧
      emitExts crc F (treeLength tree) (treeLength tree + 28) tree = .ok (tb, db) ∧
      buf = headerBytes (treeLength tree) db.length ++ (tb ++ [0]) ++ db ++
        (md5 (tb ++ [0]) ++ md5 [] ++
          md5 (headerBytes (treeLength tree) db.length ++ (tb ++ [0]) ++ db ++
            md5 (tb ++ [0]) ++ md5 [])) := by
  simp only [create_vpk, bind, Except.bind] at h
  split at h
  · cases h
  · rename_i tree htree
    split at h
    · cases h
    · rename_i p hemit
      obtain ⟨tb, db⟩ := p
      simp only [Except.ok.injEq] at h
      exact ⟨tree, tb, db, htree, hemit, by rw [← h]⟩

/-- Reading the header of a buffer laid out by the writer. -/
theorem read_header_of_layout (buf rest : Bytes) (tl embed : Nat)
    (hbuf : buf = headerBytes tl embed ++ rest) (htl : tl < 4294967296) :
    read_header buf = .ok ⟨0x55aa1234, 2, tl, embed % 4294967296, 0, 48, 0⟩ := by
  have hlen : (headerBytes tl embed).length = 28 := by simp [headerBytes, u32le]
  have hx : readExact buf 0 28 = some (headerBytes tl embed, 28) := by
    have := readExact_spec buf 0 28 (headerBytes tl embed) rest (by simp [hbuf]) hlen (by omega)
    simpa using this
  have h0 : ((headerBytes tl embed).drop (4 * 0)).take 4 = u32le 0x55aa1234 := by
    simp [headerBytes, u32le]
  have h1 : ((headerBytes tl embed).drop (4 * 1)).take 4 = u32le 2 := by
    simp [headerBytes, u32le]
  have h2 : ((headerBytes tl embed).drop (4 * 2)).take 4 = u32le tl := by
    simp [headerBytes, u32le]
  have h3 : ((headerBytes tl embed).drop (4 * 3)).take 4 = u32le embed := by
    simp [headerBytes, u32le]
  have h4 : ((headerBytes tl embed).drop (4 * 4)).take 4 = u32le 0 := by
    simp [headerBytes, u32le]
  have h5 : ((headerBytes tl embed).drop (4 * 5)).take 4 = u32le 48 := by
    simp [headerBytes, u32le]
  have h6 : ((headerBytes tl embed).drop (4 * 6)).take 4 = u32le 0 := by
    simp [headerBytes, u32le]
  simp only [read_header, hx, h0, h1, h2, h3, h4, h5, h6, decodeU32_u32le]
  norm_num [Nat.mod_eq_of_lt htl]

/-! ## Correspondence between index entries and payload slices -/

theorem slicesFiles (buf : Bytes) (crc : Bytes → Nat) (F : FileMap) (ext dir : Bytes)
    (tl : Nat) (hke : ext ≠ []) (hkd : dir ≠ [32]) :
    ∀ (fs : List Bytes) (off : Nat) (t d tail : Bytes),
    emitFiles crc F ext dir tl off fs = .ok (t, d) →
    buf.drop off = d ++ tail →
    ∀ e ∈ (entriesFiles crc F ext dir (dirPfx dir) off fs).1,
      ∃ q, readExact buf e.2.archive_offset (e.2.file_length + e.2.preload_length) =
        some ((alGet F e.1).getD [], q) := by
  intro fs
  induction fs with
  | nil =>
    intro off t d tail hemit hoff e he
    simp [entriesFiles] at he
  | cons f fs ih =>
    intro off t d tail hemit hoff e he
    obtain ⟨t1, d1, t2, d2, h1, h2, rfl, rfl⟩ :=
      emitFiles_cons_inv crc F ext dir tl off f fs t d hemit
    obtain ⟨hlook, rfl⟩ := emitFile_inv crc F ext dir tl off f t1 d1 h1
    have hext : (if 0 < ext.length then f ++ [46] ++ ext else f) = f ++ [46] ++ ext := by
      rw [if_pos (by cases ext with | nil => exact absurd rfl hke | cons a b => simp)]
    rw [hext] at hlook
    simp only [entriesFiles, hext, hlook, List.mem_cons] at he
    rcases he with he | he
    · subst he
      have hpfx : dirPfx dir = dir ++ [47] := by simp [dirPfx, hkd]
      have hget : alGet F (dirPfx dir ++ f ++ [46] ++ ext) = some d1 := by
        rw [hpfx, show dir ++ [47] ++ f ++ [46] ++ ext =
          dir ++ [47] ++ (f ++ [46] ++ ext) by simp, hlook]
      have hget2 : alGet F (dirPfx dir ++ (f ++ 46 :: ext)) = some d1 := by
        rw [show dirPfx dir ++ (f ++ 46 :: ext) = dirPfx dir ++ f ++ [46] ++ ext by simp]
        exact hget
      by_cases hd1 : d1.length = 0
      · refine ⟨off, ?_⟩
        have hnil : d1 = [] := List.eq_nil_of_length_eq_zero hd1
        subst hnil
        simp [readExact, hget2]
      · refine ⟨off + d1.length, ?_⟩
        have hrx : readExact buf off d1.length = some (d1, off + d1.length) :=
          readExact_spec buf off d1.length d1 (d2 ++ tail) (by rw [hoff]; simp) rfl hd1
        simp [hrx, hget2]
    · have hoff2 : buf.drop (off + d1.length) = d2 ++ tail := by
        rw [← List.drop_drop, hoff, List.append_assoc]
        exact drop_append_len d1 _ _ rfl
      have := ih (off + d1.length) t2 d2 tail h2 hoff2 e
      apply this
      simpa [dirPfx] using he

theorem slicesDirs (buf : Bytes) (crc : Bytes → Nat) (F : FileMap) (ext : Bytes)
    (tl : Nat) (hke : ext ≠ []) :
    ∀ (ds : List (Bytes × List Bytes)) (off : Nat) (t d tail : Bytes),
    emitDirs crc F ext tl off ds = .ok (t, d) →
    buf.drop off = d ++ tail →
    (∀ dfs ∈ ds, dfs.1 ≠ [32]) →
    ∀ e ∈ (entriesDirs crc F ext off ds).1,
      ∃ q, readExact buf e.2.archive_offset (e.2.file_length + e.2.preload_length) =
        some ((alGet F e.1).getD [], q) := by
  intro ds
  induction ds with
  | nil =>
    intro off t d tail hemit hoff hsp e he
    simp [entriesDirs] at he
  | cons dfs ds ih =>
    obtain ⟨dir, fs⟩ := dfs
    intro off t d tail hemit hoff hsp e he
    obtain ⟨t1, d1, t2, d2, h1, h2, rfl, rfl⟩ :=
      emitDirs_cons_inv crc F ext tl off dir fs ds t d hemit
    simp only [entriesDirs, List.mem_append] at he
    rcases he with he | he
    · exact slicesFiles buf crc F ext dir tl hke (hsp (dir, fs) (by simp)) fs off t1 d1
        (d2 ++ tail) h1 (by rw [hoff]; simp) e he
    · have hoff2 : buf.drop (off + d1.length) = d2 ++ tail := by
        rw [← List.drop_drop, hoff, List.append_assoc]
        exact drop_append_len d1 _ _ rfl
      have hoffeq := entriesFiles_off crc F ext dir (dirPfx dir) tl fs off t1 d1 h1
      rw [hoffeq] at he
      exact ih (off + d1.length) t2 d2 tail h2 hoff2 (fun g hg => hsp g (by simp [hg])) e he

theorem slicesTree (buf : Bytes) (crc : Bytes → Nat) (F : FileMap) (tl : Nat) :
    ∀ (es : Tree) (off : Nat) (t d tail : Bytes),
    emitExts crc F tl off es = .ok (t, d) →
    buf.drop off = d ++ tail →
    treeStringsOk es →
    ∀ e ∈ (entriesTree crc F off es).1,
      ∃ q, readExact buf e.2.archive_offset (e.2.file_length + e.2.preload_length) =
        some ((alGet F e.1).getD [], q) := by
  intro es
  induction es with
  | nil =>
    intro off t d tail hemit hoff hok e he
    simp [entriesTree] at he
  | cons eds es ih =>
    obtain ⟨ext, ds⟩ := eds
    intro off t d tail hemit hoff hok e he
    obtain ⟨t1, d1, t2, d2, h1, h2, rfl, rfl⟩ :=
      emitExts_cons_inv crc F tl off ext ds es t d hemit
    obtain ⟨hext1, _hext2, hds⟩ := hok (ext, ds) (by simp)
    simp only [entriesTree, List.mem_append] at he
    rcases he with he | he
    · exact slicesDirs buf crc F ext tl hext1 ds off t1 d1 (d2 ++ tail) h1
        (by rw [hoff]; simp) (fun g hg => (hds g hg).2.1) e he
    · have hoff2 : buf.drop (off + d1.length) = d2 ++ tail := by
        rw [← List.drop_drop, hoff, List.append_assoc]
        exact drop_append_len d1 _ _ rfl
      have hoffeq := entriesDirs_off crc F ext tl ds off t1 d1 h1
      rw [hoffeq] at he
      exact ih (off + d1.length) t2 d2 tail h2 hoff2 (fun g hg => hok g (by simp [hg])) e he

/-! ## Loading payloads from the index -/

theorem load_file_data_ok (buf : Bytes) (F : FileMap) :
    ∀ (entries : Index) (acc : FileMap),
    (∀ e ∈ entries, ∃ q, readExact buf e.2.archive_offset
      ((e.2.file_length + e.2.preload_length) % 4294967296) =
        some ((alGet F e.1).getD [], q)) →
    load_file_data buf entries acc =
      .ok (entries.foldl (fun m e => alInsert m e.1 ((alGet F e.1).getD [])) acc) := by
  intro entries
  induction entries with
  | nil => intro acc h; rfl
  | cons e rest ih =>
    intro acc h
    obtain ⟨q, hq⟩ := h e (by simp)
    obtain ⟨p, m⟩ := e
    simp only [load_file_data, hq]
    exact ih _ (fun g hg => h g (by simp [hg]))

/-- Lookup after inserting a key-determined value for every listed entry. -/
theorem alGet_foldl_insert (g : Bytes → Bytes) :
    ∀ (entries : Index) (acc : FileMap) (p : Bytes),
    alGet (entries.foldl (fun m e => alInsert m e.1 (g e.1)) acc) p =
      if p ∈ entries.map (fun e => e.1) then some (g p) else alGet acc p := by
  intro entries
  induction entries with
  | nil => intro acc p; simp
  | cons e rest ih =>
    intro acc p
    simp only [List.foldl_cons, List.map_cons, List.mem_cons]
    rw [ih]
    by_cases hp : p ∈ rest.map (fun e => e.1)
    · simp [hp]
    · rw [if_neg hp]
      by_cases hpe : p = e.1
      · subst hpe
        rw [alGet_alInsert_self, if_pos (Or.inl rfl)]
      · rw [alGet_alInsert_ne acc e.1 p (g e.1) (fun h => hpe h.symm),
          if_neg (by simp [hp, hpe])]

/-! ## The write-side tree as a multiset of (extension, directory, name) triples -/

/-- All (extension, directory, base-name) triples of a tree, in emission order. -/
def flattenTree (t : Tree) : List (Bytes × Bytes × Bytes) :=
  (t.map (fun eds => (eds.2.map (fun dfs => dfs.2.map (fun n => (eds.1, dfs.1, n)))).flatten)).flatten

/-- The logical path the reader reconstructs for a triple. -/
def recombine (x : Bytes × Bytes × Bytes) : Bytes := dirPfx x.2.1 ++ x.2.2 ++ [46] ++ x.1

/-- The grouping triple `create_vpk` extracts from one path. -/
def decompKey (p : Bytes) : Bytes × Bytes × Bytes :=
  match extStem (fileNameOf p) with
  | some (s, e) => (e, parentDir p, s)
  | none => ([], parentDir p, fileNameOf p)

theorem dirsInsert_eq_pos (dir name : Bytes) (fs : List Bytes) (ds : List (Bytes × List Bytes)) :
    dirsInsert ((dir, fs) :: ds) dir name = (dir, fs ++ [name]) :: ds := by
  simp [dirsInsert]

theorem dirsInsert_eq_neg (d dir name : Bytes) (fs : List Bytes) (ds : List (Bytes × List Bytes))
    (hd : d ≠ dir) :
    dirsInsert ((d, fs) :: ds) dir name = (d, fs) :: dirsInsert ds dir name := by
  simp [dirsInsert, hd]

theorem treeInsert_eq_pos (ext dir name : Bytes) (ds : List (Bytes × List Bytes)) (t : Tree) :
    treeInsert ((ext, ds) :: t) ext dir name = (ext, dirsInsert ds dir name) :: t := by
  simp [treeInsert]

theorem treeInsert_eq_neg (e ext dir name : Bytes) (ds : List (Bytes × List Bytes)) (t : Tree)
    (he : e ≠ ext) :
    treeInsert ((e, ds) :: t) ext dir name = (e, ds) :: treeInsert t ext dir name := by
  simp [treeInsert, he]

theorem flattenDirs_insert (ext dir name : Bytes) :
    ∀ (ds : List (Bytes × List Bytes)),
    List.Perm (((dirsInsert ds dir name).map
        (fun dfs => dfs.2.map (fun n => (ext, dfs.1, n)))).flatten)
      ((ext, dir, name) :: ((ds.map (fun dfs => dfs.2.map (fun n => (ext, dfs.1, n)))).flatten)) := by
  intro ds
  induction ds with
  | nil => simp [dirsInsert]
  | cons dfs ds ih =>
    obtain ⟨d, fs⟩ := dfs
    by_cases hd : d = dir
    · subst hd
      rw [dirsInsert_eq_pos d name fs ds]
      simp only [List.map_cons, List.flatten_cons]
      rw [List.map_append, List.append_assoc]
      exact List.perm_middle
    · rw [dirsInsert_eq_neg d dir name fs ds hd]
      simp only [List.map_cons, List.flatten_cons]
      exact (List.Perm.append_left _ ih).trans List.perm_middle

theorem flattenTree_insert (ext dir name : Bytes) :
    ∀ (t : Tree),
    List.Perm (flattenTree (treeInsert t ext dir name)) ((ext, dir, name) :: flattenTree t) := by
  intro t
  induction t with
  | nil => simp [treeInsert, flattenTree, dirsInsert]
  | cons eds t ih =>
    obtain ⟨e, ds⟩ := eds
    by_cases he : e = ext
    · subst he
      rw [treeInsert_eq_pos e dir name ds t]
      simp only [flattenTree, List.map_cons, List.flatten_cons]
      exact (flattenDirs_insert e dir name ds).append_right _
    · rw [treeInsert_eq_neg e ext dir name ds t he]
      simp only [flattenTree, List.map_cons, List.flatten_cons]
      exact (List.Perm.append_left _ ih).trans List.perm_middle

theorem buildTreeAux_perm :
    ∀ (ks : List Bytes) (t tree : Tree),
    buildTreeAux t ks = .ok tree →
    List.Perm (flattenTree tree) (ks.map decompKey ++ flattenTree t) := by
  intro ks
  induction ks with
  | nil =>
    intro t tree h
    simp only [buildTreeAux, Except.ok.injEq] at h
    subst h
    simp
  | cons k ks ih =>
    intro t tree h
    simp only [buildTreeAux] at h
    cases hes : extStem (fileNameOf k) with
    | none => rw [hes] at h; cases h
    | some se =>
      obtain ⟨s, e⟩ := se
      rw [hes] at h
      have h1 := ih (treeInsert t e (parentDir k) s) tree h
      rw [List.map_cons, show decompKey k = (e, parentDir k, s) by simp [decompKey, hes]]
      exact h1.trans ((List.Perm.append_left _
        (flattenTree_insert e (parentDir k) s t)).trans List.perm_middle)

/-! ## Invariants of the built tree -/

/-- A pointwise predicate over all triples of a tree. -/
def treePred (P : Bytes → Bytes → Bytes → Prop) (t : Tree) : Prop :=
  ∀ eds ∈ t, ∀ dfs ∈ eds.2, ∀ f ∈ dfs.2, P eds.1 dfs.1 f

/-- No level of a built tree holds an empty list. -/
def treeNonempty (t : Tree) : Prop :=
  ∀ eds ∈ t, eds.2 ≠ [] ∧ ∀ dfs ∈ eds.2, dfs.2 ≠ []

theorem dirsInsert_pred (P : Bytes → Bytes → Bytes → Prop) (ext dir name : Bytes)
    (hP : P ext dir name) :
    ∀ (ds : List (Bytes × List Bytes)),
    (∀ dfs ∈ ds, ∀ f ∈ dfs.2, P ext dfs.1 f) →
    ∀ dfs ∈ dirsInsert ds dir name, ∀ f ∈ dfs.2, P ext dfs.1 f := by
  intro ds
  induction ds with
  | nil =>
    intro _ dfs hdfs f hf
    simp [dirsInsert] at hdfs
    subst hdfs
    simp at hf
    subst hf
    exact hP
  | cons dfs0 ds ih =>
    obtain ⟨d, fs⟩ := dfs0
    intro hds dfs hdfs f hf
    by_cases hd : d = dir
    · subst hd
      rw [dirsInsert_eq_pos d name fs ds, List.mem_cons] at hdfs
      rcases hdfs with hdfs | hdfs
      · subst hdfs
        simp only [List.mem_append, List.mem_singleton] at hf
        rcases hf with hf | hf
        · exact hds (d, fs) (by simp) f hf
        · subst hf
          exact hP
      · exact hds dfs (by simp [hdfs]) f hf
    · rw [dirsInsert_eq_neg d dir name fs ds hd, List.mem_cons] at hdfs
      rcases hdfs with hdfs | hdfs
      · subst hdfs
        exact hds (d, fs) (by simp) f hf
      · exact ih (fun g hg => hds g (by simp [hg])) dfs hdfs f hf

theorem treeInsert_pred (P : Bytes → Bytes → Bytes → Prop) (ext dir name : Bytes)
    (hP : P ext dir name) :
    ∀ (t : Tree), treePred P t → treePred P (treeInsert t ext dir name) := by
  intro t
  induction t with
  | nil =>
    intro _ eds heds dfs hdfs f hf
    simp [treeInsert] at heds
    subst heds
    simp at hdfs
    subst hdfs
    simp at hf
    subst hf
    exact hP
  | cons eds0 t ih =>
    obtain ⟨e, ds⟩ := eds0
    intro ht eds heds dfs hdfs f hf
    by_cases he : e = ext
    · subst he
      rw [treeInsert_eq_pos e dir name ds t, List.mem_cons] at heds
      rcases heds with heds | heds
      · subst heds
        exact dirsInsert_pred P e dir name hP ds
          (fun g hg => ht (e, ds) (by simp) g hg) dfs hdfs f hf
      · exact ht eds (by simp [heds]) dfs hdfs f hf
    · rw [treeInsert_eq_neg e ext dir name ds t he, List.mem_cons] at heds
      rcases heds with heds | heds
      · subst heds
        exact ht (e, ds) (by simp) dfs hdfs f hf
      · exact ih (fun g hg => ht g (by simp [hg])) eds heds dfs hdfs f hf

theorem dirsInsert_ne_nil (dir name : Bytes) (ds : List (Bytes × List Bytes)) :
    dirsInsert ds dir name ≠ [] := by
  cases ds with
  | nil => simp [dirsInsert]
  | cons dfs ds =>
    obtain ⟨d, fs⟩ := dfs
    by_cases hd : d = dir
    · subst hd
      rw [dirsInsert_eq_pos d name fs ds]
      simp
    · rw [dirsInsert_eq_neg d dir name fs ds hd]
      simp

theorem dirsInsert_nonempty (dir name : Bytes) :
    ∀ (ds : List (Bytes × List Bytes)),
    (∀ dfs ∈ ds, dfs.2 ≠ []) →
    ∀ dfs ∈ dirsInsert ds dir name, dfs.2 ≠ [] := by
  intro ds
  induction ds with
  | nil =>
    intro _ dfs hdfs
    simp [dirsInsert] at hdfs
    subst hdfs
    simp
  | cons dfs0 ds ih =>
    obtain ⟨d, fs⟩ := dfs0
    intro hds dfs hdfs
    by_cases hd : d = dir
    · subst hd
      rw [dirsInsert_eq_pos d name fs ds, List.mem_cons] at hdfs
      rcases hdfs with hdfs | hdfs
      · subst hdfs
        simp
      · exact hds dfs (by simp [hdfs])
    · rw [dirsInsert_eq_neg d dir name fs ds hd, List.mem_cons] at hdfs
      rcases hdfs with hdfs | hdfs
      · subst hdfs
        exact hds (d, fs) (by simp)
      · exact ih (fun g hg => hds g (by simp [hg])) dfs hdfs

theorem treeInsert_nonempty (ext dir name : Bytes) :
    ∀ (t : Tree), treeNonempty t → treeNonempty (treeInsert t ext dir name) := by
  intro t
  induction t with
  | nil =>
    intro _ eds heds
    simp [treeInsert] at heds
    subst heds
    refine ⟨by simp, ?_⟩
    intro dfs hdfs
    simp at hdfs
    subst hdfs
    simp
  | cons eds0 t ih =>
    obtain ⟨e, ds⟩ := eds0
    intro ht eds heds
    by_cases he : e = ext
    · subst he
      rw [treeInsert_eq_pos e dir name ds t, List.mem_cons] at heds
      rcases heds with heds | heds
      · subst heds
        exact ⟨dirsInsert_ne_nil dir name ds,
          dirsInsert_nonempty dir name ds (fun g hg => (ht (e, ds) (by simp)).2 g hg)⟩
      · exact ht eds (by simp [heds])
    · rw [treeInsert_eq_neg e ext dir name ds t he, List.mem_cons] at heds
      rcases heds with heds | heds
      · subst heds
        exact ht (e, ds) (by simp)
      · exact ih (fun g hg => ht g (by simp [hg])) eds heds

theorem buildTreeAux_pred (P : Bytes → Bytes → Bytes → Prop) :
    ∀ (ks : List Bytes) (t tree : Tree),
    buildTreeAux t ks = .ok tree →
    (∀ k ∈ ks, ∃ s e, extStem (fileNameOf k) = some (s, e) ∧ P e (parentDir k) s) →
    treePred P t → treePred P tree := by
  intro ks
  induction ks with
  | nil =>
    intro t tree h _ ht
    simp only [buildTreeAux, Except.ok.injEq] at h
    subst h
    exact ht
  | cons k ks ih =>
    intro t tree h hks ht
    simp only [buildTreeAux] at h
    obtain ⟨s, e, hes, hP⟩ := hks k (by simp)
    rw [hes] at h
    exact ih (treeInsert t e (parentDir k) s) tree h
      (fun g hg => hks g (by simp [hg]))
      (treeInsert_pred P e (parentDir k) s hP t ht)

theorem buildTreeAux_nonempty :
    ∀ (ks : List Bytes) (t tree : Tree),
    buildTreeAux t ks = .ok tree → treeNonempty t → treeNonempty tree := by
  intro ks
  induction ks with
  | nil =>
    intro t tree h ht
    simp only [buildTreeAux, Except.ok.injEq] at h
    subst h
    exact ht
  | cons k ks ih =>
    intro t tree h ht
    simp only [buildTreeAux] at h
    cases hes : extStem (fileNameOf k) with
    | none => rw [hes] at h; cases h
    | some se =>
      obtain ⟨s, e⟩ := se
      rw [hes] at h
      exact ih (treeInsert t e (parentDir k) s) tree h
        (treeInsert_nonempty e (parentDir k) s t ht)

theorem buildTreeAux_succeeds :
    ∀ (ks : List Bytes) (t : Tree),
    (∀ k ∈ ks, extStem (fileNameOf k) ≠ none) →
    ∃ tree, buildTreeAux t ks = .ok tree := by
  intro ks
  induction ks with
  | nil => exact fun t _ => ⟨t, rfl⟩
  | cons k ks ih =>
    intro t hks
    cases hes : extStem (fileNameOf k) with
    | none => exact absurd hes (hks k (by simp))
    | some se =>
      obtain ⟨s, e⟩ := se
      obtain ⟨tree, htree⟩ := ih (treeInsert t e (parentDir k) s) (fun g hg => hks g (by simp [hg]))
      exact ⟨tree, by simp only [buildTreeAux, hes]; exact htree⟩

/-! ## The writer succeeds on well-formed trees -/

theorem emitFiles_succeeds (crc : Bytes → Nat) (F : FileMap) (ext dir : Bytes) (tl : Nat) :
    ∀ (fs : List Bytes) (off : Nat),
    (∀ f ∈ fs, (alGet F (dir ++ [47] ++ (if 0 < ext.length then f ++ [46] ++ ext else f))).isSome) →
    ∃ t d, emitFiles crc F ext dir tl off fs = .ok (t, d) := by
  intro fs
  induction fs with
  | nil => exact fun off _ => ⟨[], [], rfl⟩
  | cons f fs ih =>
    intro off hfs
    have h1 := hfs f (by simp)
    rw [Option.isSome_iff_exists] at h1
    obtain ⟨d1, hd1⟩ := h1
    obtain ⟨t2, d2, h2⟩ := ih (off + d1.length) (fun g hg => hfs g (by simp [hg]))
    refine ⟨f ++ [0] ++ (u32le (crc d1) ++ u16le 0 ++ u16le 32767 ++
      u32le (off - tl - 28) ++ u32le d1.length ++ u16le 65535) ++ t2, d1 ++ d2, ?_⟩
    simp only [emitFiles, bind, Except.bind, emitFile, hd1, h2]
    simp

theorem emitDirs_succeeds (crc : Bytes → Nat) (F : FileMap) (ext : Bytes) (tl : Nat) :
    ∀ (ds : List (Bytes × List Bytes)) (off : Nat),
    (∀ dfs ∈ ds, ∀ f ∈ dfs.2,
      (alGet F (dfs.1 ++ [47] ++ (if 0 < ext.length then f ++ [46] ++ ext else f))).isSome) →
    ∃ t d, emitDirs crc F ext tl off ds = .ok (t, d) := by
  intro ds
  induction ds with
  | nil => exact fun off _ => ⟨[], [], rfl⟩
  | cons dfs ds ih =>
    obtain ⟨dir, fs⟩ := dfs
    intro off hds
    obtain ⟨t1, d1, h1⟩ := emitFiles_succeeds crc F ext dir tl fs off
      (fun g hg => hds (dir, fs) (by simp) g hg)
    obtain ⟨t2, d2, h2⟩ := ih (off + d1.length) (fun g hg => hds g (by simp [hg]))
    refine ⟨dir ++ [0] ++ t1 ++ [0] ++ t2, d1 ++ d2, ?_⟩
    simp only [emitDirs, bind, Except.bind, h1, h2]

theorem emitExts_succeeds (crc : Bytes → Nat) (F : FileMap) (tl : Nat) :
    ∀ (es : Tree) (off : Nat),
    treePred (fun e d n =>
      (alGet F (d ++ [47] ++ (if 0 < e.length then n ++ [46] ++ e else n))).isSome) es →
    ∃ t d, emitExts crc F tl off es = .ok (t, d) := by
  intro es
  induction es with
  | nil => exact fun off _ => ⟨[], [], rfl⟩
  | cons eds es ih =>
    obtain ⟨ext, ds⟩ := eds
    intro off hes
    obtain ⟨t1, d1, h1⟩ := emitDirs_succeeds crc F ext tl ds off
      (fun g hg f hf => hes (ext, ds) (by simp) g hg f hf)
    obtain ⟨t2, d2, h2⟩ := ih (off + d1.length) (fun g hg => hes g (by simp [hg]))
    refine ⟨ext ++ [0] ++ t1 ++ [0] ++ t2, d1 ++ d2, ?_⟩
    simp only [emitExts, bind, Except.bind, h1, h2]

/-! ## The logical paths of the reconstructed index -/

theorem entriesFiles_fst (crc : Bytes → Nat) (F : FileMap) (ext dir pfx : Bytes) (tl : Nat) :
    ∀ (fs : List Bytes) (off : Nat) (t d : Bytes),
    emitFiles crc F ext dir tl off fs = .ok (t, d) →
    (entriesFiles crc F ext dir pfx off fs).1.map (fun e => e.1) =
      fs.map (fun f => pfx ++ f ++ [46] ++ ext) := by
  intro fs
  induction fs with
  | nil =>
    intro off t d h
    simp [entriesFiles]
  | cons f fs ih =>
    intro off t d h
    obtain ⟨t1, d1, t2, d2, h1, h2, rfl, rfl⟩ :=
      emitFiles_cons_inv crc F ext dir tl off f fs t d h
    obtain ⟨hlook, rfl⟩ := emitFile_inv crc F ext dir tl off f t1 d1 h1
    simp only [entriesFiles, hlook, List.map_cons]
    rw [ih (off + d1.length) t2 d2 h2]

theorem entriesDirs_fst (crc : Bytes → Nat) (F : FileMap) (ext : Bytes) (tl : Nat) :
    ∀ (ds : List (Bytes × List Bytes)) (off : Nat) (t d : Bytes),
    emitDirs crc F ext tl off ds = .ok (t, d) →
    (entriesDirs crc F ext off ds).1.map (fun e => e.1) =
      (ds.map (fun dfs => dfs.2.map (fun f => dirPfx dfs.1 ++ f ++ [46] ++ ext))).flatten := by
  intro ds
  induction ds with
  | nil =>
    intro off t d h
    simp [entriesDirs]
  | cons dfs ds ih =>
    obtain ⟨dir, fs⟩ := dfs
    intro off t d h
    obtain ⟨t1, d1, t2, d2, h1, h2, rfl, rfl⟩ :=
      emitDirs_cons_inv crc F ext tl off dir fs ds t d h
    simp only [entriesDirs, List.map_append, List.map_cons, List.flatten_cons]
    rw [entriesFiles_fst crc F ext dir (dirPfx dir) tl fs off t1 d1 h1,
      entriesFiles_off crc F ext dir (dirPfx dir) tl fs off t1 d1 h1,
      ih (off + d1.length) t2 d2 h2]

theorem flattenTree_cons (ext : Bytes) (ds : List (Bytes × List Bytes)) (es : Tree) :
    flattenTree ((ext, ds) :: es) =
      (ds.map (fun dfs => dfs.2.map (fun n => (ext, dfs.1, n)))).flatten ++ flattenTree es := by
  simp [flattenTree]

theorem entriesTree_fst (crc : Bytes → Nat) (F : FileMap) (tl : Nat) :
    ∀ (es : Tree) (off : Nat) (t d : Bytes),
    emitExts crc F tl off es = .ok (t, d) →
    (entriesTree crc F off es).1.map (fun e => e.1) = (flattenTree es).map recombine := by
  intro es
  induction es with
  | nil =>
    intro off t d h
    simp [entriesTree, flattenTree]
  | cons eds es ih =>
    obtain ⟨ext, ds⟩ := eds
    intro off t d h
    obtain ⟨t1, d1, t2, d2, h1, h2, rfl, rfl⟩ :=
      emitExts_cons_inv crc F tl off ext ds es t d h
    have hblock : ((ds.map (fun dfs => dfs.2.map (fun n => (ext, dfs.1, n)))).flatten).map recombine
        = (ds.map (fun dfs => dfs.2.map (fun f => dirPfx dfs.1 ++ f ++ [46] ++ ext))).flatten := by
      rw [List.map_flatten, List.map_map]
      congr 1
      apply List.map_congr_left
      intro dfs _
      simp only [Function.comp, List.map_map]
      apply List.map_congr_left
      intro n _
      simp [recombine]
    simp only [entriesTree, List.map_append]
    rw [entriesDirs_fst crc F ext tl ds off t1 d1 h1,
      entriesDirs_off crc F ext tl ds off t1 d1 h1,
      ih (off + d1.length) t2 d2 h2,
      flattenTree_cons, List.map_append, hblock]

theorem recombine_decompKey (p : Bytes) (h : goodKeyB p = true) : recombine (decompKey p) = p := by
  obtain ⟨d, s, e, hdd, _hfe, hes, hpe, _hd0, hd32, _, _, _, _, _, _, _, _, _⟩ :=
    goodKey_decomp p h
  simp only [decompKey, hes, recombine, dirPfx, hdd]
  rw [if_pos (by simpa using hd32), hpe]

/-- Every index entry reconstructed from a written file carries an empty
preload (the writer always writes preload length 0). -/
theorem entriesFiles_preload (crc : Bytes → Nat) (F : FileMap) (ext dir pfx : Bytes) :
    ∀ (fs : List Bytes) (off : Nat), ∀ e ∈ (entriesFiles crc F ext dir pfx off fs).1,
    e.2.preload = [] ∧ e.2.preload_length = 0 := by
  intro fs
  induction fs with
  | nil =>
    intro off e he
    simp [entriesFiles] at he
  | cons f fs ih =>
    intro off e he
    simp only [entriesFiles] at he
    cases hlook : alGet F (dir ++ [47] ++ (if 0 < ext.length then f ++ [46] ++ ext else f)) with
    | none => rw [hlook] at he; simp at he
    | some fd =>
      rw [hlook] at he
      simp only [List.mem_cons] at he
      rcases he with he | he
      · subst he
        exact ⟨rfl, rfl⟩
      · exact ih (off + fd.length) e he

theorem entriesDirs_preload (crc : Bytes → Nat) (F : FileMap) (ext : Bytes) :
    ∀ (ds : List (Bytes × List Bytes)) (off : Nat), ∀ e ∈ (entriesDirs crc F ext off ds).1,
    e.2.preload = [] ∧ e.2.preload_length = 0 := by
  intro ds
  induction ds with
  | nil =>
    intro off e he
    simp [entriesDirs] at he
  | cons dfs ds ih =>
    obtain ⟨dir, fs⟩ := dfs
    intro off e he
    simp only [entriesDirs, List.mem_append] at he
    rcases he with he | he
    · exact entriesFiles_preload crc F ext dir (dirPfx dir) fs off e he
    · exact ih _ e he

theorem entriesTree_preload (crc : Bytes → Nat) (F : FileMap) :
    ∀ (es : Tree) (off : Nat), ∀ e ∈ (entriesTree crc F off es).1,
    e.2.preload = [] ∧ e.2.preload_length = 0 := by
  intro es
  induction es with
  | nil =>
    intro off e he
    simp [entriesTree] at he
  | cons eds es ih =>
    obtain ⟨ext, ds⟩ := eds
    intro off e he
    simp only [entriesTree, List.mem_append] at he
    rcases he with he | he
    · exact entriesDirs_preload crc F ext ds off e he
    · exact ih _ e he

theorem mem_alInsert {α : Type} (m : List (Bytes × α)) (k : Bytes) (v : α) :
    ∀ x ∈ alInsert m k v, x ∈ m ∨ x = (k, v) := by
  induction m with
  | nil =>
    intro x hx
    simp [alInsert] at hx
    simp [hx]
  | cons h t ih =>
    obtain ⟨k', v'⟩ := h
    intro x hx
    by_cases hk : k' = k
    · simp only [alInsert, if_pos hk, List.mem_cons] at hx
      rcases hx with hx | hx
      · simp [hx]
      · simp [hx]
    · simp only [alInsert, if_neg hk, List.mem_cons] at hx
      rcases hx with hx | hx
      · simp [hx]
      · rcases ih x hx with h1 | h1
        · simp [h1]
        · simp [h1]

theorem mem_foldl_alInsert :
    ∀ (entries : Index) (acc : Index) (x : Bytes × VPKMetadata),
    x ∈ entries.foldl (fun i e => alInsert i e.1 e.2) acc → x ∈ acc ∨ x ∈ entries := by
  intro entries
  induction entries with
  | nil =>
    intro acc x hx
    simp at hx
    simp [hx]
  | cons e rest ih =>
    intro acc x hx
    simp only [List.foldl_cons] at hx
    rcases ih (alInsert acc e.1 e.2) x hx with h1 | h1
    · rcases mem_alInsert acc e.1 e.2 x h1 with h2 | h2
      · simp [h2]
      · simp [h2]
    · simp [h1]

theorem mem_alKeys_alInsert {α : Type} (m : List (Bytes × α)) (k p : Bytes) (v : α) :
    p ∈ alKeys (alInsert m k v) ↔ p ∈ alKeys m ∨ p = k := by
  by_cases hk : k ∈ alKeys m
  · rw [alKeys_alInsert_mem m k v hk]
    constructor
    · exact Or.inl
    · rintro (h | h)
      · exact h
      · exact h ▸ hk
  · rw [alKeys_alInsert_not_mem m k v hk]
    simp

theorem mem_alKeys_foldl_insert :
    ∀ (entries : Index) (acc : Index) (p : Bytes),
    p ∈ alKeys (entries.foldl (fun i e => alInsert i e.1 e.2) acc) ↔
      p ∈ alKeys acc ∨ p ∈ entries.map (fun e => e.1) := by
  intro entries
  induction entries with
  | nil =>
    intro acc p
    simp
  | cons e rest ih =>
    intro acc p
    simp only [List.foldl_cons, List.map_cons, List.mem_cons, ih,
      mem_alKeys_alInsert]
    tauto

/-- C1 (amended): round trip through the codec.  On a file set whose keys
all decompose as `dir/stem.ext` in the sense of `goodKeyB` — in particular
every path has a non-empty directory component, which the claim as stated
does not require — the writer succeeds, and (as long as the produced archive
stays below the 32-bit offset limit) reading the produced buffer back yields
exactly the written file set by (path, payload) pairs, with every index
entry carrying an empty preload. -/
theorem write_read_round_trip (md5 : Bytes → Bytes) (crc : Bytes → Nat) (F : FileMap)
    (hm : ∀ x, (md5 x).length = 16)
    (hg : ∀ p ∈ alKeys F, goodKeyB p = true) :
    ∃ buf, create_vpk md5 crc F = .ok buf ∧
      (buf.length ≤ 4294967296 →
        ∃ v, VPK.read buf = .ok v ∧ (∀ p, alGet v.files p = alGet F p) ∧
          ∀ e ∈ v.index, e.2.preload = [] ∧ e.2.preload_length = 0) := by
  have hext : ∀ k ∈ alKeys F, extStem (fileNameOf k) ≠ none := by
    intro k hk
    obtain ⟨d, s, e, _, _, hes, _⟩ := goodKey_decomp k (hg k hk)
    rw [hes]
    simp
  obtain ⟨tree, htree⟩ := buildTreeAux_succeeds (alKeys F) [] hext
  have htree' : buildTree (alKeys F) = .ok tree := htree
  have hperm : List.Perm (flattenTree tree) ((alKeys F).map decompKey) := by
    have h := buildTreeAux_perm (alKeys F) [] tree htree
    simpa [flattenTree] using h
  have hpred : treePred (fun e d n =>
      e ≠ [] ∧ (0 : Nat) ∉ e ∧ d ≠ [] ∧ d ≠ [32] ∧ (0 : Nat) ∉ d ∧ n ≠ [] ∧ (0 : Nat) ∉ n ∧
        (alGet F (d ++ [47] ++ (n ++ [46] ++ e))).isSome) tree := by
    apply buildTreeAux_pred (fun e d n =>
      e ≠ [] ∧ (0 : Nat) ∉ e ∧ d ≠ [] ∧ d ≠ [32] ∧ (0 : Nat) ∉ d ∧ n ≠ [] ∧ (0 : Nat) ∉ n ∧
        (alGet F (d ++ [47] ++ (n ++ [46] ++ e))).isSome) (alKeys F) [] tree htree
    · intro k hk
      obtain ⟨d, s, e, hdd, hfe, hes, hpe, hd0, hd32, h0d, hs0, h0s, h46s, h47s,
        he0, h0e, h46e, h47e⟩ := goodKey_decomp k (hg k hk)
      refine ⟨s, e, hes, ?_⟩
      rw [hdd]
      refine ⟨he0, h0e, hd0, hd32, h0d, hs0, h0s, ?_⟩
      have hkey : d ++ [47] ++ (s ++ [46] ++ e) = k := by
        rw [hpe]
        simp
      rw [hkey]
      obtain ⟨v, hv⟩ := alGet_isSome_of_mem_keys F k hk
      simp [hv]
    · intro eds h
      exact absurd h (List.not_mem_nil eds)
  have hne : treeNonempty tree :=
    buildTreeAux_nonempty (alKeys F) [] tree htree
      (fun eds h => absurd h (List.not_mem_nil eds))
  have hstr : treeStringsOk tree := by
    intro eds heds
    obtain ⟨dfs0, hdfs0⟩ := List.exists_mem_of_ne_nil _ ((hne eds heds).1)
    obtain ⟨f0, hf0⟩ := List.exists_mem_of_ne_nil _ ((hne eds heds).2 dfs0 hdfs0)
    obtain ⟨he1, he2, _, _, _, _, _, _⟩ := hpred eds heds dfs0 hdfs0 f0 hf0
    refine ⟨he1, he2, ?_⟩
    intro dfs hdfs
    obtain ⟨f1, hf1⟩ := List.exists_mem_of_ne_nil _ ((hne eds heds).2 dfs hdfs)
    obtain ⟨_, _, hd1, hd2, hd3, _, _, _⟩ := hpred eds heds dfs hdfs f1 hf1
    refine ⟨hd1, hd2, hd3, ?_⟩
    intro f hf
    obtain ⟨_, _, _, _, _, hf1', hf2', _⟩ := hpred eds heds dfs hdfs f hf
    exact ⟨hf1', hf2'⟩
  have hlookup : treePred (fun e d n =>
      (alGet F (d ++ [47] ++ (if 0 < e.length then n ++ [46] ++ e else n))).isSome) tree := by
    intro eds heds dfs hdfs f hf
    obtain ⟨he1, _, _, _, _, _, _, hsome⟩ := hpred eds heds dfs hdfs f hf
    rw [if_pos (by cases hq : eds.1 with
      | nil => exact absurd hq he1
      | cons a b => simp)]
    exact hsome
  obtain ⟨tb, db, hemit⟩ :=
    emitExts_succeeds crc F (treeLength tree) tree (treeLength tree + 28) hlookup
  have htb1 : tb.length + 1 = treeLength tree := by
    have h1 := emitExts_tlen crc F (treeLength tree) tree (treeLength tree + 28) tb db hemit
    have h2 := treeLength_eq_spec tree
    rw [specTreeLength] at h2
    omega
  set tl := treeLength tree with htl_def
  set Hh : Bytes := md5 (tb ++ [0]) ++ md5 [] ++
    md5 (headerBytes tl db.length ++ (tb ++ [0]) ++ db ++ md5 (tb ++ [0]) ++ md5 []) with hH
  set buf : Bytes := headerBytes tl db.length ++ (tb ++ [0]) ++ db ++ Hh with hbuf
  have hcreate : create_vpk md5 crc F = .ok buf := by
    rw [hbuf, hH]
    simp only [create_vpk, bind, Except.bind, htree', hemit]
  refine ⟨buf, hcreate, ?_⟩
  intro hlen
  have hHlen : Hh.length = 48 := by
    rw [hH]
    simp [hm]
  have hhdr28 : (headerBytes tl db.length).length = 28 := by
    simp [headerBytes, u32le]
  have hbl : buf.length = 28 + tb.length + 1 + db.length + 48 := by
    rw [hbuf]
    simp only [List.length_append, hhdr28, hHlen, List.length_cons, List.length_nil]
    omega
  have hsz : 28 + tl + db.length + 48 ≤ 4294967296 := by omega
  set hdr0 : VPKHeader := ⟨0x55aa1234, 2, tl, db.length % 4294967296, 0, 48, 0⟩ with hhdr0
  have hrh : read_header buf = .ok hdr0 := by
    apply read_header_of_layout buf ((tb ++ [0]) ++ (db ++ Hh)) tl db.length ?_ (by omega)
    rw [hbuf]
    simp
  have hdrop28 : buf.drop 28 = tb ++ 0 :: (db ++ Hh) := by
    rw [hbuf, show headerBytes tl db.length ++ (tb ++ [0]) ++ db ++ Hh =
      headerBytes tl db.length ++ (tb ++ 0 :: (db ++ Hh)) by simp]
    exact drop_append_len _ _ 28 hhdr28
  have hfuel : tree.length < buf.length + 1 := by
    have hts := emitExts_tlen crc F tl tree (tl + 28) tb db hemit
    have h6 := length_le_sum_map_add
      (fun (eds : Bytes × List (Bytes × List Bytes)) => eds.1.length +
        (eds.2.map (fun dfs => dfs.1.length + 2 +
          (dfs.2.map (fun f => f.length + 19)).sum)).sum) 2 (by omega) tree
    have h7 : (tree.map (fun eds => eds.1.length +
        (eds.2.map (fun dfs => dfs.1.length + 2 +
          (dfs.2.map (fun f => f.length + 19)).sum)).sum + 2)).sum =
        (tree.map (fun eds => eds.1.length + 2 +
          (eds.2.map (fun dfs => dfs.1.length + 2 +
            (dfs.2.map (fun f => f.length + 19)).sum)).sum)).sum := by
      congr 1
      apply List.map_congr_left
      intro x _
      omega
    rw [h7, ← hts] at h6
    omega
  have hPE := parseExts buf hdr0 crc F tl rfl tree (buf.length + 1) (tl + 28) 28 [] tb db
    (db ++ Hh) hemit hstr (by omega) (by omega) hdrop28 (by omega) hfuel
  set entries : Index := (entriesTree crc F (tl + 28) tree).1 with hentries
  set index : Index := entries.foldl (fun i e => alInsert i e.1 e.2) [] with hindex
  have hpop : populate_index buf hdr0 = .ok (index, 28 + (tb.length + 1)) := by
    simp only [populate_index, hPE]
  have hdropD : buf.drop (tl + 28) = db ++ Hh := by
    rw [hbuf, show headerBytes tl db.length ++ (tb ++ [0]) ++ db ++ Hh =
      (headerBytes tl db.length ++ (tb ++ [0])) ++ (db ++ Hh) by simp]
    apply drop_append_len
    simp only [List.length_append, hhdr28, List.length_cons, List.length_nil]
    omega
  have hslice := slicesTree buf crc F tl tree (tl + 28) tb db Hh hemit hdropD hstr
  have hload : load_file_data buf index [] =
      .ok (index.foldl (fun m e => alInsert m e.1 ((alGet F e.1).getD [])) []) := by
    apply load_file_data_ok buf F index []
    intro e he
    rcases mem_foldl_alInsert entries [] e he with h | h
    · simp at h
    · obtain ⟨q, hq⟩ := hslice e h
      have hge := (entriesTree_off_ge crc F tree (tl + 28)).2 e h
      have hfl : e.2.file_length + e.2.preload_length < 4294967296 := by
        by_cases hz : e.2.file_length + e.2.preload_length = 0
        · omega
        · simp only [readExact, if_neg hz] at hq
          by_cases hre : e.2.archive_offset + (e.2.file_length + e.2.preload_length) ≤
              buf.length
          · omega
          · rw [if_neg hre] at hq
            cases hq
      exact ⟨q, by rw [Nat.mod_eq_of_lt hfl]; exact hq⟩
  set files : FileMap := index.foldl (fun m e => alInsert m e.1 ((alGet F e.1).getD [])) []
    with hfiles
  have hread : VPK.read buf = .ok ⟨hdr0, index, files, 28 + (tb.length + 1)⟩ := by
    simp only [VPK.read, bind, Except.bind, hrh, hpop, hload]
  refine ⟨⟨hdr0, index, files, 28 + (tb.length + 1)⟩, hread, ?_, ?_⟩
  · intro p
    rw [hfiles, alGet_foldl_insert (fun k => (alGet F k).getD []) index []]
    have hmem : (p ∈ index.map (fun e => e.1)) ↔ p ∈ alKeys F := by
      have hstep1 : (p ∈ index.map (fun e => e.1)) ↔ p ∈ entries.map (fun e => e.1) := by
        rw [hindex]
        have := mem_alKeys_foldl_insert entries [] p
        simp only [alKeys] at this
        rw [show (index.map (fun e => e.1) : List Bytes) =
          List.map Prod.fst index from rfl] at *
        constructor
        · intro hp
          rcases (mem_alKeys_foldl_insert entries [] p).mp (by simpa [alKeys] using hp)
            with h | h
          · simp [alKeys] at h
          · simpa using h
        · intro hp
          have := (mem_alKeys_foldl_insert entries [] p).mpr (Or.inr (by simpa using hp))
          simpa [alKeys] using this
      rw [hstep1, hentries,
        entriesTree_fst crc F tl tree (tl + 28) tb db hemit]
      rw [List.Perm.mem_iff (hperm.map recombine)]
      rw [List.map_map]
      rw [List.map_congr_left (fun k hk => by
        simp only [Function.comp]
        exact recombine_decompKey k (hg k hk))]
      simp [alKeys]
    cases halG : alGet F p with
    | some v =>
      have hpk : p ∈ alKeys F := by
        by_contra hc
        rw [← alGet_eq_none_iff] at hc
        rw [hc] at halG
        cases halG
      rw [if_pos (hmem.mpr hpk)]
      rfl
    | none =>
      have hpk : p ∉ alKeys F := (alGet_eq_none_iff F p).mp halG
      rw [if_neg (fun hc => hpk (hmem.mp hc))]
      rfl
  · intro e he
    rcases mem_foldl_alInsert entries [] e he with h | h
    · simp at h
    · exact entriesTree_preload crc F tree (tl + 28) e h

/-! ## Structural inversions of the reader -/

theorem VPK.read_inv (buf : Bytes) (v : VPKFile) (h : VPK.read buf = .ok v) :
    ∃ hdr idx wpos files, read_header buf = .ok hdr ∧
      populate_index buf hdr = .ok (idx, wpos) ∧
      load_file_data buf idx [] = .ok files ∧
      v = ⟨hdr, idx, files, wpos⟩ := by
  simp only [VPK.read, bind, Except.bind] at h
  split at h
  · cases h
  · rename_i hdr hhdr
    split at h
    · cases h
    · rename_i pr hpop
      obtain ⟨idx, wpos⟩ := pr
      split at h
      · cases h
      · rename_i files hload
        simp only [Except.ok.injEq] at h
        exact ⟨hdr, idx, wpos, files, hhdr, hpop, hload, h.symm⟩

theorem populate_index_inv (buf : Bytes) (hdr : VPKHeader) (idx : Index) (wpos : Nat)
    (h : populate_index buf hdr = .ok (idx, wpos)) :
    ∃ w, loopExts buf hdr (buf.length + 1) 28 [] = .ok (w, idx, wpos) := by
  simp only [populate_index] at h
  split at h
  · cases h
  · rename_i w idx' pos' heq
    simp only [Except.ok.injEq, Prod.mk.injEq] at h
    exact ⟨w, by rw [heq, h.1, h.2]⟩

/-! ## Invariant of every entry the tree walk inserts: the record passed
terminator validation, and its path was assembled as directory prefix,
base name, dot, extension with nonempty name and extension. -/

def entryInv (e : Bytes × VPKMetadata) : Prop :=
  e.2.suffix = 65535 ∧ ∃ d n ex, n ≠ [] ∧ ex ≠ [] ∧ e.1 = entryPath d n ex

theorem validate_suffix (m m' : VPKMetadata) (hdr : VPKHeader)
    (h : m.validate hdr = .ok m') : m'.suffix = 65535 := by
  simp only [VPKMetadata.validate] at h
  by_cases h1 : m.suffix ≠ 65535
  · rw [if_pos h1] at h
    cases h
  · rw [if_neg h1] at h
    push_neg at h1
    by_cases h2 : m.archive_index = 32767
    · rw [if_pos h2] at h
      simp only [Except.ok.injEq] at h
      rw [← h]
      exact h1
    · rw [if_neg h2] at h
      simp only [Except.ok.injEq] at h
      rw [← h]
      exact h1

theorem loopFiles_inv (buf : Bytes) (hdr : VPKHeader) (ext pfx : Bytes)
    (hpfx : ∃ d, pfx = dirPfx d) (hext : ext ≠ []) :
    ∀ (fuel pos : Nat) (idx : Index) (w : WalkExit) (idx' : Index) (pos' : Nat),
    loopFiles buf hdr ext pfx fuel pos idx = .ok (w, idx', pos') →
    (∀ e ∈ idx, entryInv e) → ∀ e ∈ idx', entryInv e := by
  intro fuel
  induction fuel with
  | zero =>
    intro pos idx w idx' pos' h hidx
    simp only [loopFiles, Except.ok.injEq, Prod.mk.injEq] at h
    obtain ⟨_, rfl, _⟩ := h
    exact hidx
  | succ fu ih =>
    intro pos idx w idx' pos' h hidx
    simp only [loopFiles] at h
    split at h
    · simp only [Except.ok.injEq, Prod.mk.injEq] at h
      obtain ⟨_, rfl, _⟩ := h
      exact hidx
    · rename_i name hname
      split at h
      · simp only [Except.ok.injEq, Prod.mk.injEq] at h
        obtain ⟨_, rfl, _⟩ := h
        exact hidx
      · rename_i hname0
        split at h
        · cases h
        · rename_i metadata pos2 hx1
          split at h
          · cases h
          · rename_i preload pos3 hx2
            split at h
            · cases h
            · rename_i meta' hval
              apply ih pos3 _ w idx' pos' h
              intro e he
              rcases mem_alInsert idx _ _ e he with h1 | h1
              · exact hidx e h1
              · rw [h1]
                obtain ⟨d, hd⟩ := hpfx
                exact ⟨validate_suffix _ meta' hdr hval, d, name, ext, hname0, hext,
                  by rw [hd]; rfl⟩

theorem loopDirs_inv (buf : Bytes) (hdr : VPKHeader) (ext : Bytes) (hext : ext ≠ []) :
    ∀ (fuel pos : Nat) (idx : Index) (w : WalkExit) (idx' : Index) (pos' : Nat),
    loopDirs buf hdr ext fuel pos idx = .ok (w, idx', pos') →
    (∀ e ∈ idx, entryInv e) → ∀ e ∈ idx', entryInv e := by
  intro fuel
  induction fuel with
  | zero =>
    intro pos idx w idx' pos' h hidx
    simp only [loopDirs, Except.ok.injEq, Prod.mk.injEq] at h
    obtain ⟨_, rfl, _⟩ := h
    exact hidx
  | succ fu ih =>
    intro pos idx w idx' pos' h hidx
    simp only [loopDirs] at h
    split at h
    · simp only [Except.ok.injEq, Prod.mk.injEq] at h
      obtain ⟨_, rfl, _⟩ := h
      exact hidx
    · rename_i dir hdir
      split at h
      · simp only [Except.ok.injEq, Prod.mk.injEq] at h
        obtain ⟨_, rfl, _⟩ := h
        exact hidx
      · split at h
        · cases h
        · rename_i idx2 pos2 hfiles
          have hf := loopFiles_inv buf hdr ext (dirPfx dir) ⟨dir, rfl⟩ hext
            (buf.length + 1) _ idx _ idx2 pos2 hfiles hidx
          simp only [Except.ok.injEq, Prod.mk.injEq] at h
          obtain ⟨_, rfl, _⟩ := h
          exact hf
        · rename_i idx2 pos2 hfiles
          have hf := loopFiles_inv buf hdr ext (dirPfx dir) ⟨dir, rfl⟩ hext
            (buf.length + 1) _ idx _ idx2 pos2 hfiles hidx
          exact ih pos2 idx2 w idx' pos' h hf

theorem loopExts_inv (buf : Bytes) (hdr : VPKHeader) :
    ∀ (fuel pos : Nat) (idx : Index) (w : WalkExit) (idx' : Index) (pos' : Nat),
    loopExts buf hdr fuel pos idx = .ok (w, idx', pos') →
    (∀ e ∈ idx, entryInv e) → ∀ e ∈ idx', entryInv e := by
  intro fuel
  induction fuel with
  | zero =>
    intro pos idx w idx' pos' h hidx
    simp only [loopExts, Except.ok.injEq, Prod.mk.injEq] at h
    obtain ⟨_, rfl, _⟩ := h
    exact hidx
  | succ fu ih =>
    intro pos idx w idx' pos' h hidx
    simp only [loopExts] at h
    split at h
    · cases h
    · split at h
      · simp only [Except.ok.injEq, Prod.mk.injEq] at h
        obtain ⟨_, rfl, _⟩ := h
        exact hidx
      · rename_i ext hextv
        split at h
        · simp only [Except.ok.injEq, Prod.mk.injEq] at h
          obtain ⟨_, rfl, _⟩ := h
          exact hidx
        · rename_i hext0
          split at h
          · cases h
          · rename_i idx2 pos2 hdirs
            have hf := loopDirs_inv buf hdr ext hext0 (buf.length + 1) _ idx _ idx2 pos2
              hdirs hidx
            simp only [Except.ok.injEq, Prod.mk.injEq] at h
            obtain ⟨_, rfl, _⟩ := h
            exact hf
          · rename_i idx2 pos2 hdirs
            have hf := loopDirs_inv buf hdr ext hext0 (buf.length + 1) _ idx _ idx2 pos2
              hdirs hidx
            exact ih pos2 idx2 w idx' pos' h hf

theorem read_index_inv (buf : Bytes) (v : VPKFile) (h : VPK.read buf = .ok v) :
    ∀ e ∈ v.index, entryInv e := by
  obtain ⟨hdr, idx, wpos, files, _, hpop, _, hv⟩ := VPK.read_inv buf v h
  obtain ⟨w, hle⟩ := populate_index_inv buf hdr idx wpos hpop
  have := loopExts_inv buf hdr (buf.length + 1) 28 [] w idx wpos hle
    (fun e he => absurd he (List.not_mem_nil e))
  rw [hv]
  exact this

/-! ## Patch-merger lemmas -/

/-- The gap-filling loop of `patch_vpk` (lines 403-408): lookups in the
result prefer the target, falling back to the base. -/
theorem patch_fold_get :
    ∀ (base : FileMap) (t0 : FileMap) (p : Bytes),
    alGet (base.foldl (fun t kv =>
      if (alGet t kv.1).isSome then t else alInsert t kv.1 kv.2) t0) p =
      orO (alGet t0 p) (alGet base p) := by
  intro base
  induction base with
  | nil =>
    intro t0 p
    simp [orO, alGet]
    cases alGet t0 p <;> rfl
  | cons kv rest ih =>
    obtain ⟨k0, v0⟩ := kv
    intro t0 p
    simp only [List.foldl_cons]
    by_cases hk : (alGet t0 k0).isSome
    · rw [if_pos hk, ih]
      by_cases hp : k0 = p
      · subst hp
        rw [Option.isSome_iff_exists] at hk
        obtain ⟨w, hw⟩ := hk
        simp [orO, hw, alGet]
      · simp only [alGet, if_neg hp]
    · rw [if_neg hk, ih]
      by_cases hp : k0 = p
      · subst hp
        rw [Option.not_isSome_iff_eq_none] at hk
        simp [orO, hk, alGet_alInsert_self, alGet]
      · rw [alGet_alInsert_ne t0 k0 p v0 hp]
        simp only [alGet, if_neg hp]

/-- The gap-filling loop only grows the map: its size is the target size
plus the number of base entries absent from the target (base keys distinct). -/
theorem patch_fold_length :
    ∀ (base : FileMap) (t0 : FileMap), (alKeys base).Nodup →
    (base.foldl (fun t kv =>
      if (alGet t kv.1).isSome then t else alInsert t kv.1 kv.2) t0).length =
      t0.length + (base.filter (fun kv => (alGet t0 kv.1).isNone)).length := by
  intro base
  induction base with
  | nil =>
    intro t0 _
    simp
  | cons kv rest ih =>
    obtain ⟨k0, v0⟩ := kv
    intro t0 hnd
    have hnd' : (alKeys rest).Nodup := by
      rw [alKeys, List.map_cons] at hnd
      exact (List.nodup_cons.mp hnd).2
    have hk0 : k0 ∉ alKeys rest := by
      rw [alKeys, List.map_cons] at hnd
      exact (List.nodup_cons.mp hnd).1
    simp only [List.foldl_cons]
    by_cases hk : (alGet t0 k0).isSome
    · rw [if_pos hk, ih t0 hnd']
      have hnn : ¬ ((fun kv : Bytes × Bytes => (alGet t0 kv.1).isNone) (k0, v0)) = true := by
        simp only [Option.isNone_iff_eq_none]
        exact Option.ne_none_iff_isSome.mpr hk
      have hfil : (((k0, v0) :: rest).filter (fun kv => (alGet t0 kv.1).isNone)).length =
          (rest.filter (fun kv => (alGet t0 kv.1).isNone)).length := by
        rw [List.filter_cons, if_neg hnn]
      rw [hfil]
    · rw [if_neg hk, ih _ hnd']
      have hlen1 : (alInsert t0 k0 v0).length = t0.length + 1 := by
        have h1 := alKeys_alInsert_not_mem t0 k0 v0
          (by rw [← alGet_eq_none_iff, ← Option.not_isSome_iff_eq_none]; exact hk)
        have h2 := congrArg List.length h1
        simp only [List.length_append, List.length_cons, List.length_nil,
          alKeys_length] at h2
        omega
      have hfil2 : rest.filter (fun kv => (alGet (alInsert t0 k0 v0) kv.1).isNone) =
          rest.filter (fun kv => (alGet t0 kv.1).isNone) := by
        apply List.filter_congr
        intro kv hkv
        have hne : k0 ≠ kv.1 := by
          intro hq
          apply hk0
          rw [hq]
          exact List.mem_map_of_mem Prod.fst hkv
        rw [alGet_alInsert_ne t0 k0 kv.1 v0 hne]
      have hfil3 : (((k0, v0) :: rest).filter (fun kv => (alGet t0 kv.1).isNone)).length =
          (rest.filter (fun kv => (alGet t0 kv.1).isNone)).length + 1 := by
        rw [List.filter_cons, if_pos (by
          simp only [Option.isNone_iff_eq_none, ← Option.not_isSome_iff_eq_none]
          simpa using hk)]
        simp
      rw [hfil2, hlen1, hfil3]
      omega

theorem length_alInsert_mem {α : Type} (m : List (Bytes × α)) (k : Bytes) (v : α)
    (h : k ∈ alKeys m) : (alInsert m k v).length = m.length := by
  have h1 := alKeys_alInsert_mem m k v h
  have h2 := congrArg List.length h1
  rw [alKeys_length, alKeys_length] at h2
  exact h2

/-- Unfolding of `patch_vpk` when the scan finds a map file. -/
theorem patch_vpk_found (base target : FileMap) (k v : Bytes)
    (hfind : (alKeys target).find? endsWithVmap = some k)
    (hget : alGet target k = some v) :
    patch_vpk base target = .ok (base.foldl (fun t kv =>
      if (alGet t kv.1).isSome then t else alInsert t kv.1 kv.2)
      (alInsert (alRemove target k) (withFileName k dotaName) v)) := by
  simp only [patch_vpk, hfind, Option.getD_some, hget]

/-! ## Concrete instances

Fixtures for evaluating the theorems above on closed inputs.  The external
digest parameters are instantiated with trivial functions (the reader never
checks the digests, so any instantiation exercises the same control flow). -/

/-- A stand-in for the external MD5 digest: sixteen zero bytes. -/
def md5zero : Bytes → Bytes := fun _ => List.replicate 16 0

/-- A stand-in for the external CRC32 digest: always zero. -/
def crczero : Bytes → Nat := fun _ => 0

/-- The one-file archive set `{"m/a.t" ↦ [7, 8]}`. -/
def F3 : FileMap := [([109, 47, 97, 46, 116], [7, 8])]

/-- The archive set `{"f.t" ↦ [9]}`: a root-level path without a directory
component, non-empty and with exactly one extension segment. -/
def F1bad : FileMap := [([102, 46, 116], [9])]

/-- The buffer `create_vpk` produces for `F3` under the trivial digests. -/
def sampleBuf : Bytes :=
  match create_vpk md5zero crczero F3 with
  | .ok b => b
  | .error _ => []

/-- A 56-byte archive buffer: a version-2 header with tree length 27, the
tree `t`/`d`/`f` with one valid record, and the one-byte payload `A`. -/
def vbuf : Bytes :=
  [52, 18, 170, 85, 2, 0, 0, 0, 27, 0, 0, 0, 1, 0, 0, 0, 0, 0, 0, 0,
   48, 0, 0, 0, 0, 0, 0, 0, 116, 0, 100, 0, 102, 0, 0, 0, 0, 0, 0, 0,
   255, 127, 0, 0, 0, 0, 1, 0, 0, 0, 255, 255, 0, 0, 0, 65]

/-- The file object `VPK::read` yields on `vbuf`. -/
def vfile : VPKFile :=
  match VPK.read vbuf with
  | .ok v => v
  | .error _ => ⟨⟨0, 0, 0, 0, 0, 0, 0⟩, [], [], 0⟩

/-- The index entry of `vfile`: path `d/f.t` with its validated record. -/
def vEntry : Bytes × VPKMetadata :=
  ([100, 47, 102, 46, 116], ⟨[], 0, 0, 32767, 55, 1, 65535⟩)

/-- `vbuf` with the record's terminator bytes replaced by `0x1234`. -/
def badBuf : Bytes := vbuf.take 50 ++ [52, 18] ++ vbuf.drop 52

/-- A header with version 1 and tree length 0, followed by tree strings
`t`/`d` that run past the declared 28-byte tree boundary. -/
def b6buf : Bytes :=
  u32le 0x55aa1234 ++ u32le 1 ++ u32le 0 ++ u32le 0 ++ u32le 0 ++
    u32le 0 ++ u32le 0 ++ [116, 0, 100, 0]

/-- A header followed by two non-NUL bytes: an extension string truncated
before its terminator. -/
def buf9 : Bytes :=
  u32le 0x55aa1234 ++ u32le 2 ++ u32le 0 ++ u32le 0 ++ u32le 0 ++
    u32le 48 ++ u32le 0 ++ [116, 116]

/-- A version-2 header that declares tree length 0, followed by one
complete extension block (`t`/`d`/`f` with a valid record and its two
closing terminators) and then a truncated string run (`x` with no NUL):
the buffer ends mid-string at position 54. -/
def c9bad : Bytes :=
  u32le 0x55aa1234 ++ u32le 2 ++ u32le 0 ++ u32le 0 ++ u32le 0 ++
    u32le 0 ++ u32le 0 ++
    [116, 0, 100, 0, 102, 0,
     0, 0, 0, 0, 0, 0, 0, 0, 0, 0, 0, 0, 0, 0, 0, 0, 255, 255,
     0, 0, 120]

/-- The target set `{"" ↦ [1]}`, whose only key is the empty string. -/
def T7 : FileMap := [([], [1])]

/-- `"maps/custom.vmap_c"`. -/
def customKey2 : Bytes :=
  [109, 97, 112, 115, 47, 99, 117, 115, 116, 111, 109, 46, 118, 109, 97, 112, 95, 99]

/-- The base set `{"maps/dota.vmap_c" ↦ [66], "maps/extra.vpk_c" ↦ [88]}`. -/
def B2 : FileMap :=
  [([109, 97, 112, 115, 47, 100, 111, 116, 97, 46, 118, 109, 97, 112, 95, 99], [66]),
   ([109, 97, 112, 115, 47, 101, 120, 116, 114, 97, 46, 118, 112, 107, 95, 99], [88])]

/-- The target set `{"maps/custom.vmap_c" ↦ [79]}`. -/
def T2 : FileMap := [(customKey2, [79])]

/-- `"a/custom.vmap_c"`. -/
def customKeyA : Bytes :=
  [97, 47, 99, 117, 115, 116, 111, 109, 46, 118, 109, 97, 112, 95, 99]

/-- `"a/dota.vmap_c"`. -/
def dotaKeyA : Bytes := [97, 47, 100, 111, 116, 97, 46, 118, 109, 97, 112, 95, 99]

/-- `{"a/dota.vmap_c" ↦ [1], "a/custom.vmap_c" ↦ [2]}` in that order. -/
def t10 : FileMap := [(dotaKeyA, [1]), (customKeyA, [2])]

/-- `{"a/custom.vmap_c" ↦ [2], "a/dota.vmap_c" ↦ [1]}` in that order. -/
def t10w : FileMap := [(customKeyA, [2]), (dotaKeyA, [1])]

/-! ## The claims -/

/-- Witness for the amended C1 round trip at `F3 = {"m/a.t" ↦ [7, 8]}`. -/
theorem write_read_round_trip_witness :
    ∃ buf, create_vpk md5zero crczero F3 = .ok buf ∧
      (buf.length ≤ 4294967296 →
        ∃ v, VPK.read buf = .ok v ∧ (∀ p, alGet v.files p = alGet F3 p) ∧
          ∀ e ∈ v.index, e.2.preload = [] ∧ e.2.preload_length = 0) :=
  write_read_round_trip md5zero crczero F3 (fun _ => rfl) (by decide)

/-- Counterexample to C1 as stated: every path of `F1bad = {"f.t" ↦ [9]}` is
non-empty and contains exactly one extension segment (one interior dot), yet
the writer itself fails — the directory-less path is grouped under the empty
directory but looked up as `"/f.t"` — so `read(write(F1bad))` yields nothing
at all. -/
theorem C1_counterexample :
    (∀ p ∈ alKeys F1bad, p ≠ [] ∧ p.countP (fun c => c = 46) = 1) ∧
    create_vpk md5zero crczero F1bad = .error .missingFile := by
  decide

/-- C2: when the key scan of `patch_vpk` finds the `.vmap_c` key `k`
holding payload `v`, the merge succeeds, and every lookup in the merged set
is the lookup in the target with `k`'s entry moved to `dota.vmap_c` in the
same directory, falling back to the base only where that renamed target has
no entry (target precedence). -/
theorem C2_patch_merge (base target : FileMap) (k v : Bytes)
    (hfind : (alKeys target).find? endsWithVmap = some k)
    (hget : alGet target k = some v) :
    ∃ m, patch_vpk base target = .ok m ∧
      ∀ p, alGet m p =
        orO (alGet (alInsert (alRemove target k) (withFileName k dotaName) v) p)
          (alGet base p) :=
  ⟨_, patch_vpk_found base target k v hfind hget,
    fun p => patch_fold_get base _ p⟩

/-- Witness for C2 at the claim's own example: base
`{"maps/dota.vmap_c" ↦ [66], "maps/extra.vpk_c" ↦ [88]}`, target
`{"maps/custom.vmap_c" ↦ [79]}`; the merged set is exactly
`{"maps/dota.vmap_c" ↦ [79], "maps/extra.vpk_c" ↦ [88]}`. -/
theorem C2_witness :
    (∃ m, patch_vpk B2 T2 = .ok m ∧
      ∀ p, alGet m p =
        orO (alGet (alInsert (alRemove T2 customKey2) (withFileName customKey2 dotaName) [79]) p)
          (alGet B2 p)) ∧
    patch_vpk B2 T2 = .ok
      [([109, 97, 112, 115, 47, 100, 111, 116, 97, 46, 118, 109, 97, 112, 95, 99], [79]),
       ([109, 97, 112, 115, 47, 101, 120, 116, 114, 97, 46, 118, 112, 107, 95, 99], [88])] :=
  ⟨C2_patch_merge B2 T2 customKey2 [79] (by decide) (by decide), by decide⟩

/-- C3: a buffer the writer produces begins with four bytes decoding to
`0x55AA1234`, and its declared tree-length field (bytes 8..12) decodes to
the analytically computed tree length (`specTreeLength`, modelled from the
spec's formula) as a 32-bit field — exactly the analytic value whenever it
fits in 32 bits. -/
theorem C3_header_invariant (md5 : Bytes → Bytes) (crc : Bytes → Nat)
    (F : FileMap) (buf : Bytes) (h : create_vpk md5 crc F = .ok buf) :
    ∃ tree, buildTree (alKeys F) = .ok tree ∧
      decodeU32 (buf.take 4) = 0x55aa1234 ∧
      decodeU32 ((buf.drop 8).take 4) = specTreeLength tree % 4294967296 ∧
      (specTreeLength tree < 4294967296 →
        decodeU32 ((buf.drop 8).take 4) = specTreeLength tree) := by
  obtain ⟨tree, tb, db, htree, hemit, hbuf⟩ := create_vpk_inv md5 crc F buf h
  have htake : ∀ (a b : Nat) (r : Bytes), (headerBytes a b ++ r).take 4 = u32le 0x55aa1234 := by
    intro a b r
    simp [headerBytes, u32le]
  have hdrop : ∀ (a b : Nat) (r : Bytes), ((headerBytes a b ++ r).drop 8).take 4 = u32le a := by
    intro a b r
    simp [headerBytes, u32le]
  refine ⟨tree, htree, ?_, ?_, ?_⟩
  · rw [hbuf, List.append_assoc, List.append_assoc, htake, decodeU32_u32le]
  · rw [hbuf, List.append_assoc, List.append_assoc, hdrop, decodeU32_u32le,
      treeLength_eq_spec]
  · intro hlt
    rw [hbuf, List.append_assoc, List.append_assoc, hdrop, decodeU32_u32le,
      treeLength_eq_spec, Nat.mod_eq_of_lt hlt]

/-- Witness for C3 on the concrete buffer written for `F3`. -/
theorem C3_witness :
    ∃ tree, buildTree (alKeys F3) = .ok tree ∧
      decodeU32 (sampleBuf.take 4) = 0x55aa1234 ∧
      decodeU32 ((sampleBuf.drop 8).take 4) = specTreeLength tree % 4294967296 ∧
      (specTreeLength tree < 4294967296 →
        decodeU32 ((sampleBuf.drop 8).take 4) = specTreeLength tree) :=
  C3_header_invariant md5zero crczero F3 sampleBuf (by decide)

/-- C4: every entry the reader's tree walk inserts has the logical path
`entryPath dir name ext` — the directory prefix (empty for a single-space
directory, otherwise the directory and a separator), the base name, a dot,
and the extension — with the name and the extension both non-empty (so the
empty-extension clause never applies to a parsed entry), and this path
coincides with the spec-modelled `specLogicalPath`. -/
theorem C4_logical_paths (buf : Bytes) (v : VPKFile) (h : VPK.read buf = .ok v) :
    ∀ e ∈ v.index, ∃ d n ex, n ≠ [] ∧ ex ≠ [] ∧ e.1 = entryPath d n ex ∧
      entryPath d n ex = specLogicalPath d n ex := by
  intro e he
  obtain ⟨-, d, n, ex, hn, hex, hp⟩ := read_index_inv buf v h e he
  refine ⟨d, n, ex, hn, hex, hp, ?_⟩
  by_cases hd : d = [32] <;>
    simp [entryPath, specLogicalPath, dirPfx, hd, hex]

/-- Witness for C4 on the entry `d/f.t` parsed from `vbuf`. -/
theorem C4_witness :
    ∃ d n ex, n ≠ [] ∧ ex ≠ [] ∧ vEntry.1 = entryPath d n ex ∧
      entryPath d n ex = specLogicalPath d n ex :=
  C4_logical_paths vbuf vfile (by decide) vEntry (by decide)

/-- C5: a record whose 16-bit terminator field decodes to anything other
than `0xFFFF` makes the file loop of the walk fail with `indexCorrupt`
(assuming the bytes up to and including the record's preload are present);
the walk never completes normally past such a record. -/
theorem C5_bad_terminator (buf : Bytes) (hdr : VPKHeader) (ext pfx : Bytes)
    (fuel pos : Nat) (idx : Index) (name metadata preload : Bytes) (pos2 pos3 : Nat)
    (hname : fromVecWithNul (readUntilNul buf pos).1 = some name)
    (hname0 : name ≠ [])
    (hmd : readExact buf (readUntilNul buf pos).2 18 = some (metadata, pos2))
    (hpre : readExact buf pos2 (decodeU16 ((metadata.drop 4).take 2)) = some (preload, pos3))
    (hsfx : decodeU16 ((metadata.drop 16).take 2) ≠ 65535)
    (hfuel : 0 < fuel) :
    loopFiles buf hdr ext pfx fuel pos idx = .error .indexCorrupt := by
  obtain ⟨fu, rfl⟩ : ∃ fu, fuel = fu + 1 := ⟨fuel - 1, by omega⟩
  simp only [loopFiles, hname, hmd, hpre, if_neg hname0]
  simp [VPKMetadata.validate, hsfx]

/-- Witness for C5 on `badBuf`, whose record terminator is `0x1234`:
parsing the file entry fails with `indexCorrupt`. -/
theorem C5_witness :
    loopFiles badBuf ⟨0x55aa1234, 2, 27, 1, 0, 48, 0⟩ [116] (dirPfx [100]) 57 32 [] =
      .error .indexCorrupt :=
  C5_bad_terminator badBuf ⟨0x55aa1234, 2, 27, 1, 0, 48, 0⟩ [116] (dirPfx [100]) 57 32 []
    [102] [0, 0, 0, 0, 0, 0, 255, 127, 0, 0, 0, 0, 1, 0, 0, 0, 52, 18] [] 52 52
    (by decide) (by decide) (by decide) (by decide) (by decide) (by decide)

/-- Counterexample to C6 as stated: `b6buf` declares version 1 and tree
length 0, its tree strings carry the walk to position 32 — four bytes past
the `28 + tree_length` bound — and the reader still returns normally, since
the bound is checked only at the top of an outer-loop iteration. -/
theorem C6_counterexample :
    ∃ v, VPK.read b6buf = .ok v ∧ v.header.version ≠ 0 ∧
      28 + v.header.tree_length < v.walk_pos :=
  ⟨⟨⟨0x55aa1234, 1, 0, 0, 0, 0, 0⟩, [], [], 32⟩, by decide, by decide, by decide⟩

/-- The guard of lines 153-157 fires: an outer-loop iteration that starts
with a nonzero version and a position past the (u32-wrapped) bound fails
with `indexCorrupt`. -/
theorem loopExts_guard_stop (buf : Bytes) (hdr : VPKHeader) (fuel pos : Nat)
    (idx : Index) (hv : 0 < hdr.version)
    (hpos : (hdr.tree_length + 28) % 4294967296 < pos) (hfuel : 0 < fuel) :
    loopExts buf hdr fuel pos idx = .error .indexCorrupt := by
  obtain ⟨fu, rfl⟩ : ∃ fu, fuel = fu + 1 := ⟨fuel - 1, by omega⟩
  simp only [loopExts, if_pos (And.intro hv hpos)]

/-- C6 (amended): the bound of lines 152-157 is enforced exactly at the top
of each outer-loop iteration: whenever an iteration starts with a nonzero
format version and the position already past `28 + tree_length`, the walk
fails with `indexCorrupt` (the source computes the bound in `u32`, and the
wrapped bound is never larger, so the check still fires).  Between two such
checks the position can pass the bound with the walk still returning
normally (`C6_counterexample`). -/
theorem C6_amended_bound (buf : Bytes) (hdr : VPKHeader) (fuel pos : Nat)
    (idx : Index) (hv : 0 < hdr.version) (hpos : hdr.tree_length + 28 < pos)
    (hfuel : 0 < fuel) :
    loopExts buf hdr fuel pos idx = .error .indexCorrupt :=
  loopExts_guard_stop buf hdr fuel pos idx hv
    (Nat.lt_of_le_of_lt (Nat.mod_le _ _) hpos) hfuel

/-- Witness for the amended C6 at a concrete out-of-bounds iteration. -/
theorem C6_witness :
    loopExts [] ⟨0x55aa1234, 1, 0, 0, 0, 0, 0⟩ 1 29 [] = .error .indexCorrupt :=
  C6_amended_bound [] ⟨0x55aa1234, 1, 0, 0, 0, 0, 0⟩ 1 29 []
    (by decide) (by decide) (by decide)

/-- Counterexample to C7 as stated: no key of the target `{"" ↦ [1]}` ends
in `.vmap_c`, yet the merge succeeds — the failed scan falls back to the
empty string, which is a key of this target — renaming the empty-path entry
to `dota.vmap_c`. -/
theorem C7_counterexample :
    (∀ p ∈ alKeys T7, endsWithVmap p = false) ∧
    patch_vpk [] T7 = .ok [(dotaName, [1])] := by
  decide

/-- C7 (amended): when no target key ends in `.vmap_c` and the empty string
is not a key of the target either, the merge fails with `noMapFile`. -/
theorem C7_amended_no_map (base target : FileMap)
    (hnone : ∀ p ∈ alKeys target, endsWithVmap p = false)
    (hroot : alGet target [] = none) :
    patch_vpk base target = .error .noMapFile := by
  have hfind : (alKeys target).find? endsWithVmap = none := by
    rw [List.find?_eq_none]
    intro x hx
    simp [hnone x hx]
  simp only [patch_vpk, hfind, Option.getD_none, hroot]

/-- Witness for the amended C7 on the target `{"a" ↦ [1]}`. -/
theorem C7_witness : patch_vpk [] [([97], [1])] = .error .noMapFile :=
  C7_amended_no_map [] [([97], [1])] (by decide) (by decide)

/-- C8: a buffer the writer produces is, in order, the 28-byte header, the
tree section, the payload section, and a trailing self-hash section of
exactly 48 bytes, itself the concatenation of three 16-byte digests: the
digest of the tree section alone, the digest of the empty chunk-hash
section, and the digest over header ∥ tree ∥ payload ∥ tree-digest ∥
chunk-digest (assuming the digest parameter returns 16 bytes, as MD5
does). -/
theorem C8_hash_trailer (md5 : Bytes → Bytes) (crc : Bytes → Nat) (F : FileMap)
    (buf : Bytes) (hm : ∀ x, (md5 x).length = 16)
    (h : create_vpk md5 crc F = .ok buf) :
    ∃ tl tree payload,
      buf = headerBytes tl payload.length ++ tree ++ payload ++
        (md5 tree ++ md5 [] ++
          md5 (headerBytes tl payload.length ++ tree ++ payload ++ md5 tree ++ md5 [])) ∧
      (md5 tree).length = 16 ∧ (md5 []).length = 16 ∧
      (md5 (headerBytes tl payload.length ++ tree ++ payload ++ md5 tree ++ md5 [])).length
        = 16 ∧
      buf.length = 28 + tree.length + payload.length + 48 ∧
      buf.drop (28 + tree.length + payload.length) =
        md5 tree ++ md5 [] ++
          md5 (headerBytes tl payload.length ++ tree ++ payload ++ md5 tree ++ md5 []) := by
  obtain ⟨tr, tb, db, htree, hemit, hbuf⟩ := create_vpk_inv md5 crc F buf h
  have h28 : ∀ (a b : Nat), (headerBytes a b).length = 28 := by
    intro a b
    simp [headerBytes, u32le]
  refine ⟨treeLength tr, tb ++ [0], db, hbuf, hm _, hm _, hm _, ?_, ?_⟩
  · rw [hbuf]
    simp only [List.length_append, h28, hm, List.length_cons, List.length_nil]
    try omega
  · rw [hbuf]
    have hlen : (headerBytes (treeLength tr) db.length ++ (tb ++ [0]) ++ db).length =
        28 + (tb ++ [0]).length + db.length := by
      simp only [List.length_append, h28]
    exact drop_append_len _ _ _ hlen

/-- Witness for C8 on the concrete buffer written for `F3`. -/
theorem C8_witness :
    ∃ tl tree payload,
      sampleBuf = headerBytes tl payload.length ++ tree ++ payload ++
        (md5zero tree ++ md5zero [] ++
          md5zero (headerBytes tl payload.length ++ tree ++ payload ++
            md5zero tree ++ md5zero [])) ∧
      (md5zero tree).length = 16 ∧ (md5zero []).length = 16 ∧
      (md5zero (headerBytes tl payload.length ++ tree ++ payload ++
        md5zero tree ++ md5zero [])).length = 16 ∧
      sampleBuf.length = 28 + tree.length + payload.length + 48 ∧
      sampleBuf.drop (28 + tree.length + payload.length) =
        md5zero tree ++ md5zero [] ++
          md5zero (headerBytes tl payload.length ++ tree ++ payload ++
            md5zero tree ++ md5zero []) :=
  C8_hash_trailer md5zero crczero F3 sampleBuf (fun _ => rfl) (by decide)

theorem loopFiles_eof (buf : Bytes) (hdr : VPKHeader) (ext pfx : Bytes)
    (fuel pos : Nat) (idx : Index) (hfuel : 0 < fuel)
    (he : fromVecWithNul (readUntilNul buf pos).1 = none) :
    loopFiles buf hdr ext pfx fuel pos idx = .ok (.ret, idx, (readUntilNul buf pos).2) := by
  obtain ⟨fu, rfl⟩ : ∃ fu, fuel = fu + 1 := ⟨fuel - 1, by omega⟩
  simp only [loopFiles, he]

theorem loopDirs_eof (buf : Bytes) (hdr : VPKHeader) (ext : Bytes)
    (fuel pos : Nat) (idx : Index) (hfuel : 0 < fuel)
    (he : fromVecWithNul (readUntilNul buf pos).1 = none) :
    loopDirs buf hdr ext fuel pos idx = .ok (.ret, idx, (readUntilNul buf pos).2) := by
  obtain ⟨fu, rfl⟩ : ∃ fu, fuel = fu + 1 := ⟨fuel - 1, by omega⟩
  simp only [loopDirs, he]

theorem loopExts_eof (buf : Bytes) (hdr : VPKHeader)
    (fuel pos : Nat) (idx : Index) (hfuel : 0 < fuel)
    (hchk : ¬(hdr.version > 0 ∧ pos > (hdr.tree_length + 28) % 4294967296))
    (he : fromVecWithNul (readUntilNul buf pos).1 = none) :
    loopExts buf hdr fuel pos idx = .ok (.ret, idx, (readUntilNul buf pos).2) := by
  obtain ⟨fu, rfl⟩ : ∃ fu, fuel = fu + 1 := ⟨fuel - 1, by omega⟩
  simp only [loopExts, if_neg hchk, he]

theorem VPK_read_truncated (buf : Bytes) (hdr : VPKHeader)
    (hh : read_header buf = .ok hdr)
    (hchk : ¬(hdr.version > 0 ∧ 28 > (hdr.tree_length + 28) % 4294967296))
    (he : fromVecWithNul (readUntilNul buf 28).1 = none) :
    VPK.read buf = .ok ⟨hdr, [], [], (readUntilNul buf 28).2⟩ := by
  have hle : loopExts buf hdr (buf.length + 1) 28 [] =
      .ok (.ret, [], (readUntilNul buf 28).2) :=
    loopExts_eof buf hdr (buf.length + 1) 28 [] (by omega) hchk he
  simp only [VPK.read, bind, Except.bind, hh, populate_index, hle, load_file_data]

/-- C9 (amended): a string run that ends without a NUL terminator stops the
walk normally only when it is reached without tripping the bound check of
the enclosing outer-loop iteration.  The file-name and directory loops
return `ret` with the index exactly as parsed so far and no error,
unconditionally; the extension loop does so provided its iteration's bound
check passes, and fails with `indexCorrupt` when the check fires instead
(`C9_counterexample` reaches this case with a truncated run after one
complete extension block); and a buffer whose tree section begins with a
truncated run, under a header whose bound check passes at position 28,
reads through `VPK::read` to a file object with an empty index, payload
loading having proceeded on that partial index. -/
theorem C9_truncated_walk (buf : Bytes) (hdr : VPKHeader) :
    (∀ (ext pfx : Bytes) (fuel pos : Nat) (idx : Index), 0 < fuel →
      fromVecWithNul (readUntilNul buf pos).1 = none →
      loopFiles buf hdr ext pfx fuel pos idx = .ok (.ret, idx, (readUntilNul buf pos).2)) ∧
    (∀ (ext : Bytes) (fuel pos : Nat) (idx : Index), 0 < fuel →
      fromVecWithNul (readUntilNul buf pos).1 = none →
      loopDirs buf hdr ext fuel pos idx = .ok (.ret, idx, (readUntilNul buf pos).2)) ∧
    (∀ (fuel pos : Nat) (idx : Index), 0 < fuel →
      ¬(hdr.version > 0 ∧ pos > (hdr.tree_length + 28) % 4294967296) →
      fromVecWithNul (readUntilNul buf pos).1 = none →
      loopExts buf hdr fuel pos idx = .ok (.ret, idx, (readUntilNul buf pos).2)) ∧
    (∀ (fuel pos : Nat) (idx : Index), 0 < fuel →
      0 < hdr.version → (hdr.tree_length + 28) % 4294967296 < pos →
      loopExts buf hdr fuel pos idx = .error .indexCorrupt) ∧
    (∀ hdr2, read_header buf = .ok hdr2 →
      ¬(hdr2.version > 0 ∧ 28 > (hdr2.tree_length + 28) % 4294967296) →
      fromVecWithNul (readUntilNul buf 28).1 = none →
      VPK.read buf = .ok ⟨hdr2, [], [], (readUntilNul buf 28).2⟩) :=
  ⟨fun ext pfx fuel pos idx hf he => loopFiles_eof buf hdr ext pfx fuel pos idx hf he,
   fun ext fuel pos idx hf he => loopDirs_eof buf hdr ext fuel pos idx hf he,
   fun fuel pos idx hf hc he => loopExts_eof buf hdr fuel pos idx hf hc he,
   fun fuel pos idx hf hv hpos => loopExts_guard_stop buf hdr fuel pos idx hv hpos hf,
   fun hdr2 hh hc he => VPK_read_truncated buf hdr2 hh hc he⟩

/-- Counterexample to C9 as stated: `c9bad` ends mid-string (the run
starting at position 54 is the single byte `x` with no NUL terminator),
yet the reader does not return normally with the one entry parsed before
the truncation — it fails with `indexCorrupt`, because the outer-loop
iteration after the complete extension block starts at position 54, past
the declared (lying) bound `28 + 0`. -/
theorem C9_counterexample :
    c9bad.drop 54 = [120] ∧
    fromVecWithNul (readUntilNul c9bad 54).1 = none ∧
    VPK.read c9bad = .error .indexCorrupt := by
  decide

/-- Witness for the amended C9 on `buf9`, whose tree section is the
truncated extension string `tt`: the whole read succeeds with an empty
index. -/
theorem C9_witness :
    VPK.read buf9 = .ok ⟨⟨0x55aa1234, 2, 0, 0, 0, 48, 0⟩, [], [], 30⟩ :=
  (C9_truncated_walk buf9 ⟨0, 0, 0, 0, 0, 0, 0⟩).2.2.2.2
    ⟨0x55aa1234, 2, 0, 0, 0, 48, 0⟩ (by decide) (by decide) (by decide)

/-- Counterexample to C10 as stated: in the target
`{"a/dota.vmap_c" ↦ [1], "a/custom.vmap_c" ↦ [2]}`, the entry
`a/custom.vmap_c` ends in `.vmap_c` and a distinct entry sits at its
directory joined with `dota.vmap_c`, yet the merge leaves payload `[1]` —
not `[2]` — at `a/dota.vmap_c`: the scan finds the `dota.vmap_c` key first
(it too ends in `.vmap_c`) and renames it to itself. -/
theorem C10_counterexample :
    endsWithVmap customKeyA = true ∧
    customKeyA ∈ alKeys t10 ∧
    withFileName customKeyA dotaName = dotaKeyA ∧
    dotaKeyA ∈ alKeys t10 ∧
    dotaKeyA ≠ customKeyA ∧
    patch_vpk [] t10 = .ok [(customKeyA, [2]), (dotaKeyA, [1])] ∧
    alGet [(customKeyA, [2]), (dotaKeyA, [1])] dotaKeyA = some [1] := by
  decide

/-- C10 (amended): when the first `.vmap_c` key the scan finds is `k`, with
payload `v`, and the target also holds a distinct entry at `k`'s directory
joined with `dota.vmap_c`, the merge maps that `dota.vmap_c` path to `v`,
and the merged size is exactly `|target| - 1` plus the number of
gap-filling base entries — strictly fewer than `|target|` plus that number
plus one (base keys assumed distinct). -/
theorem C10_amended_first_match (base target : FileMap) (k v : Bytes)
    (hfind : (alKeys target).find? endsWithVmap = some k)
    (hget : alGet target k = some v)
    (hmem : withFileName k dotaName ∈ alKeys target)
    (hne : withFileName k dotaName ≠ k)
    (hnd : (alKeys base).Nodup) :
    ∃ m, patch_vpk base target = .ok m ∧
      alGet m (withFileName k dotaName) = some v ∧
      m.length = target.length - 1 +
        (base.filter (fun kv =>
          (alGet (alInsert (alRemove target k) (withFileName k dotaName) v) kv.1).isNone)).length ∧
      m.length < target.length +
        (base.filter (fun kv =>
          (alGet (alInsert (alRemove target k) (withFileName k dotaName) v) kv.1).isNone)).length
        + 1 := by
  have hk : k ∈ alKeys target :=
    List.mem_map_of_mem Prod.fst (alGet_mem target k v hget)
  have hmem' : withFileName k dotaName ∈ alKeys (alRemove target k) :=
    mem_alKeys_alRemove target k _ (Ne.symm hne) hmem
  have hlen1 : (alInsert (alRemove target k) (withFileName k dotaName) v).length =
      target.length - 1 := by
    rw [length_alInsert_mem _ _ _ hmem', length_alRemove_mem target k hk]
  refine ⟨_, patch_vpk_found base target k v hfind hget, ?_, ?_, ?_⟩
  · rw [patch_fold_get]
    simp [orO, alGet_alInsert_self]
  · rw [patch_fold_length base _ hnd, hlen1]
  · rw [patch_fold_length base _ hnd, hlen1]
    omega

/-- Witness for the amended C10: target
`{"a/custom.vmap_c" ↦ [2], "a/dota.vmap_c" ↦ [1]}`, whose first `.vmap_c`
key is the custom one; the merged set maps `a/dota.vmap_c` to `[2]` and has
one entry. -/
theorem C10_witness :
    ∃ m, patch_vpk [] t10w = .ok m ∧
      alGet m (withFileName customKeyA dotaName) = some [2] ∧
      m.length = t10w.length - 1 +
        (List.filter (fun kv : Bytes × Bytes =>
          (alGet (alInsert (alRemove t10w customKeyA) (withFileName customKeyA dotaName) [2])
            kv.1).isNone) ([] : FileMap)).length ∧
      m.length < t10w.length +
        (List.filter (fun kv : Bytes × Bytes =>
          (alGet (alInsert (alRemove t10w customKeyA) (withFileName customKeyA dotaName) [2])
            kv.1).isNone) ([] : FileMap)).length + 1 :=
  C10_amended_first_match [] t10w customKeyA [2]
    (by decide) (by decide) (by decide) (by decide) (by decide)

end VpkSpec
